import Mathlib

/-!
Verification of the priority-steerable file-transfer service
(crate `common` plus the `server` and `client` binaries).

The development is a shallow embedding of the Rust sources:
byte streams are `List Nat` (each element a byte value), machine
integers are `Nat` with explicit truncation where the code truncates,
fallible reads return `Option`, and the server's per-connection
scheduler is an explicit state machine over lists of per-file slots.
-/

namespace Socket

/-- Big-endian encoding of `x` into `n` bytes, as produced by
`to_be_bytes` on an `n`-byte unsigned integer (truncates to `n` bytes). -/
def beBytes : Nat → Nat → List Nat
  | 0, _ => []
  | n + 1, x => beBytes n (x / 256) ++ [x % 256]

/-- Big-endian decoding of a byte list, as done by `from_be_bytes`. -/
def fromBe (l : List Nat) : Nat := l.foldl (fun a b => a * 256 + b) 0

/-- `read_exact` into a buffer of `n` bytes from the stream `s`:
succeeds with the bytes read and the rest of the stream iff the stream
holds at least `n` bytes. -/
def readN (n : Nat) (s : List Nat) : Option (List Nat × List Nat) :=
  if n ≤ s.length then some (s.take n, s.drop n) else none

theorem beBytes_length (n x : Nat) : (beBytes n x).length = n := by
  induction n generalizing x with
  | zero => rfl
  | succ n ih => simp [beBytes, ih]

theorem fromBe_append_singleton (l : List Nat) (b : Nat) :
    fromBe (l ++ [b]) = fromBe l * 256 + b := by
  simp [fromBe, List.foldl_append]

theorem fromBe_beBytes (n x : Nat) : fromBe (beBytes n x) = x % 256 ^ n := by
  induction n generalizing x with
  | zero => simp [beBytes, fromBe, Nat.mod_one]
  | succ n ih =>
    rw [beBytes, fromBe_append_singleton, ih]
    have h256 : 256 ^ (n + 1) = 256 * 256 ^ n := by ring
    rw [h256, Nat.mod_mul]
    have := Nat.mod_lt x (show 0 < 256 by norm_num)
    omega

theorem fromBe_beBytes_of_lt {n x : Nat} (h : x < 256 ^ n) :
    fromBe (beBytes n x) = x := by
  rw [fromBe_beBytes, Nat.mod_eq_of_lt h]

theorem readN_exact (n : Nat) (a b : List Nat) (h : a.length = n) :
    readN n (a ++ b) = some (a, b) := by
  simp [readN, h, List.take_append, List.drop_append]

theorem readN_all (n : Nat) (a : List Nat) (h : a.length = n) :
    readN n a = some (a, []) := by
  have := readN_exact n a [] h
  simpa using this

/-! ## Chunk codec (`common/src/lib.rs`, `struct Chunk` and `impl Packet for Chunk`)

A `Chunk` holds a length and a 1024-byte buffer; only the first `len`
bytes are payload.  `ChunkM.endF` models `Chunk::end`. -/

structure ChunkM where
  len : Nat
  buf : List Nat
deriving Repr, DecidableEq

/-- `Chunk::end`: the chunk is terminal iff its length is below 1024. -/
def ChunkM.endF (c : ChunkM) : Bool := c.len < 1024

/-- `<Chunk as Packet>::send`: a 16-bit big-endian header — `(1 << 15) | len`
when the chunk is terminal, `0` otherwise — followed by the first `len`
bytes of the buffer. -/
def chunkSend (c : ChunkM) : List Nat :=
  let header := if c.endF then (1 <<< 15) ||| c.len else 0
  beBytes 2 header ++ c.buf.take c.len

/-- `<Chunk as Packet>::recv`: read a 2-byte big-endian header; if bit 15
is set the payload length is `header & 0x3ff`, otherwise 1024; read that
many payload bytes into a zero-initialised 1024-byte buffer. -/
def chunkRecv (s : List Nat) : Option (ChunkM × List Nat) :=
  match readN 2 s with
  | none => none
  | some (hd, s1) =>
    let header := fromBe hd
    let isEnd := header >>> 15 != 0
    let len := if isEnd then header &&& 0x3ff else 1024
    match readN len s1 with
    | none => none
    | some (payload, s2) =>
      some (⟨len, payload ++ List.replicate (1024 - len) 0⟩, s2)

theorem and_1023_lt (h : Nat) : h &&& 1023 < 1024 := by
  have := Nat.and_pow_two_sub_one_eq_mod h 10
  norm_num at this
  rw [this]
  exact Nat.mod_lt _ (by norm_num)

set_option maxRecDepth 4096 in
theorem header_facts : ∀ l < 1024,
    ((1 <<< 15) ||| l) >>> 15 = 1 ∧ ((1 <<< 15) ||| l) &&& 1023 = l ∧
    (1 <<< 15) ||| l < 65536 := by decide

theorem chunkRecv_chunkSend (c : ChunkM) (rest : List Nat)
    (hlen : c.len ≤ 1024) (hbuf : c.len ≤ c.buf.length) :
    chunkRecv (chunkSend c ++ rest) =
      some (⟨c.len, c.buf.take c.len ++ List.replicate (1024 - c.len) 0⟩, rest) := by
  have htake : (c.buf.take c.len).length = c.len := by
    simp [List.length_take]
    omega
  by_cases hend : c.len < 1024
  · have hf := header_facts c.len hend
    unfold chunkSend chunkRecv
    rw [ChunkM.endF, decide_eq_true hend, if_pos rfl, List.append_assoc,
      readN_exact 2 _ _ (beBytes_length 2 _)]
    dsimp only
    rw [fromBe_beBytes_of_lt (show (1 <<< 15) ||| c.len < 256 ^ 2 by
        simpa using hf.2.2)]
    simp only [hf.1, hf.2.1]
    norm_num [readN_exact c.len _ rest htake]
  · have h1024 : c.len = 1024 := by omega
    unfold chunkSend chunkRecv
    rw [ChunkM.endF, decide_eq_false (by omega), if_neg (by simp), List.append_assoc,
      readN_exact 2 _ _ (beBytes_length 2 _)]
    dsimp only
    rw [fromBe_beBytes_of_lt (show 0 < 256 ^ 2 by norm_num)]
    norm_num [h1024, readN_exact 1024 (c.buf.take 1024) rest
      (by rw [List.length_take]; omega)]

theorem readN_length {n : Nat} {s a b : List Nat} (h : readN n s = some (a, b)) :
    a.length = n := by
  unfold readN at h
  split at h
  · simp only [Option.some.injEq, Prod.mk.injEq] at h
    rw [← h.1, List.length_take]
    omega
  · exact absurd h (by simp)

theorem readN_zero (s : List Nat) : readN 0 s = some ([], s) := by
  simp [readN]

/-- C10: every chunk produced by `Chunk::recv` has `len ≤ 1024` (at most 1023
when the end flag was set, exactly 1024 otherwise), its buffer has length
1024, and `len` never exceeds the buffer length, so each `buf[..len]` slice
in `Chunk::recv`, `Chunk::send` and `Chunk::write` is in bounds. -/
theorem chunkRecv_len_le (s : List Nat) (c : ChunkM) (rest : List Nat)
    (h : chunkRecv s = some (c, rest)) :
    c.len ≤ 1024 ∧ c.buf.length = 1024 ∧ c.len ≤ c.buf.length ∧
      (c.endF = true → c.len ≤ 1023) ∧ (c.endF = false → c.len = 1024) := by
  unfold chunkRecv at h
  cases h2 : readN 2 s with
  | none => rw [h2] at h; exact absurd h (by simp)
  | some p =>
    obtain ⟨hd, s1⟩ := p
    rw [h2] at h
    dsimp only at h
    by_cases hbit : fromBe hd >>> 15 = 0
    · rw [hbit] at h
      norm_num at h
      cases h3 : readN 1024 s1 with
      | none => rw [h3] at h; exact absurd h (by simp)
      | some q =>
        obtain ⟨payload, s2⟩ := q
        rw [h3] at h
        have hp := readN_length h3
        simp only [Option.some.injEq, Prod.mk.injEq] at h
        obtain ⟨hc, -⟩ := h
        subst hc
        simp [ChunkM.endF, hp]
    · have hlt := and_1023_lt (fromBe hd)
      rw [if_pos (by simpa using hbit)] at h
      cases h3 : readN (fromBe hd &&& 1023) s1 with
      | none => rw [h3] at h; exact absurd h (by simp)
      | some q =>
        obtain ⟨payload, s2⟩ := q
        rw [h3] at h
        have hp := readN_length h3
        simp only [Option.some.injEq, Prod.mk.injEq] at h
        obtain ⟨hc, -⟩ := h
        subst hc
        simp only [ChunkM.endF, List.length_append, List.length_replicate, hp]
        refine ⟨by omega, by omega, by omega, fun _ => by omega, fun hf => ?_⟩
        exact absurd hf (by simp; omega)

/-- Witness for C10 at the concrete stream `beBytes 2 0 ++ 1024 zero bytes`. -/
theorem chunkRecv_len_le_witness :
    chunkRecv (beBytes 2 0 ++ List.replicate 1024 0) =
        some (⟨1024, List.replicate 1024 0⟩, []) ∧
      (1024 : Nat) ≤ 1024 ∧ (List.replicate 1024 (0 : Nat)).length = 1024 ∧
      (1024 : Nat) ≤ (List.replicate 1024 (0 : Nat)).length ∧
      ((ChunkM.mk 1024 (List.replicate 1024 0)).endF = true → (1024 : Nat) ≤ 1023) ∧
      ((ChunkM.mk 1024 (List.replicate 1024 0)).endF = false → (1024 : Nat) = 1024) := by
  have h : chunkRecv (beBytes 2 0 ++ List.replicate 1024 0) =
      some (⟨1024, List.replicate 1024 0⟩, []) := by
    unfold chunkRecv
    rw [readN_exact 2 _ _ (beBytes_length 2 _)]
    dsimp only
    rw [fromBe_beBytes_of_lt (by norm_num)]
    norm_num
    rw [readN_all 1024 (List.replicate 1024 (0 : Nat)) (List.length_replicate _ _)]
  have h2 := chunkRecv_len_le _ _ _ h
  exact ⟨h, h2.1, h2.2.1, h2.2.2.1, h2.2.2.2.1, h2.2.2.2.2⟩

/-- C5: for every payload length in `{0, 1, 1023, 1024}`, encoding a chunk
with `Chunk::send` and decoding with `Chunk::recv` yields a chunk with
identical length and identical payload bytes, and the decoded chunk's
terminal status (`Chunk::end`) is true iff its length is below 1024. -/
theorem chunk_roundtrip (c : ChunkM) (hbuf : c.buf.length = 1024)
    (hlen : c.len = 0 ∨ c.len = 1 ∨ c.len = 1023 ∨ c.len = 1024) :
    (chunkRecv (chunkSend c)).map
        (fun p => (p.1.len, p.1.buf.take p.1.len, p.1.endF, p.2)) =
      some (c.len, c.buf.take c.len, decide (c.len < 1024), ([] : List Nat)) := by
  have hle : c.len ≤ 1024 := by rcases hlen with h | h | h | h <;> omega
  have h := chunkRecv_chunkSend c [] hle (by omega)
  rw [List.append_nil] at h
  rw [h]
  have htake : (c.buf.take c.len).length = c.len := by
    rw [List.length_take]
    omega
  simp [ChunkM.endF, List.take_left' htake]

/-- Witness for C5 at the terminal zero-length chunk over a zeroed buffer. -/
theorem chunk_roundtrip_witness :
    (ChunkM.mk 0 (List.replicate 1024 0)).buf.length = 1024 ∧
      (chunkRecv (chunkSend ⟨0, List.replicate 1024 0⟩)).map
          (fun p => (p.1.len, p.1.buf.take p.1.len, p.1.endF, p.2)) =
        some (0, [], true, ([] : List Nat)) := by
  refine ⟨List.length_replicate _ _, ?_⟩
  exact chunk_roundtrip ⟨0, List.replicate 1024 0⟩ (List.length_replicate _ _)
    (Or.inl rfl)

/-- C1 (amended): for a header with bit 15 (the end flag) set, `Chunk::recv`
reads a payload whose length is `header & 0x3ff` — the header's bits 0–9,
i.e. `header mod 2^10` — not the value of bits 0–14; for a header with bit 15
clear it reads exactly 1024 payload bytes.  (For headers produced by
`Chunk::send` the two fields agree, since a terminal length is ≤ 1023.) -/
theorem chunkRecv_end_len_low10 (header : Nat) (payload rest : List Nat)
    (hh : header < 65536) :
    (header >>> 15 ≠ 0 →
        payload.length = header % 1024 →
        chunkRecv (beBytes 2 header ++ (payload ++ rest)) =
          some (⟨header % 1024,
                 payload ++ List.replicate (1024 - header % 1024) 0⟩, rest) ∧
          header &&& 0x3ff = header % 1024)
    ∧ (header >>> 15 = 0 →
        payload.length = 1024 →
        chunkRecv (beBytes 2 header ++ (payload ++ rest)) =
          some (⟨1024, payload⟩, rest)) := by
  have hmask : header &&& 1023 = header % 1024 := by
    have := Nat.and_pow_two_sub_one_eq_mod header 10
    norm_num at this
    exact this
  constructor
  · intro hbit hplen
    refine ⟨?_, hmask⟩
    unfold chunkRecv
    rw [readN_exact 2 _ _ (beBytes_length 2 _)]
    dsimp only
    rw [fromBe_beBytes_of_lt (show header < 256 ^ 2 by norm_num; omega)]
    rw [if_pos (by simpa using hbit)]
    rw [hmask, readN_exact _ _ _ hplen]
  · intro hbit hplen
    unfold chunkRecv
    rw [readN_exact 2 _ _ (beBytes_length 2 _)]
    dsimp only
    rw [fromBe_beBytes_of_lt (show header < 256 ^ 2 by norm_num; omega)]
    rw [hbit]
    norm_num
    rw [readN_exact 1024 _ _ hplen]

/-- Witness for the amended C1 at header `0x8001` (end flag set, low field 1)
with a one-byte payload, and at header `0` with a full 1024-byte payload. -/
theorem chunkRecv_end_len_low10_witness :
    ((32769 : Nat) < 65536 ∧ (32769 : Nat) >>> 15 ≠ 0 ∧
      (List.replicate 1 (7 : Nat)).length = 32769 % 1024 ∧
      chunkRecv (beBytes 2 32769 ++ (List.replicate 1 7 ++ [])) =
        some (⟨32769 % 1024,
               List.replicate 1 7 ++ List.replicate (1024 - 32769 % 1024) 0⟩, []) ∧
      (32769 : Nat) &&& 0x3ff = 32769 % 1024) ∧
    ((0 : Nat) < 65536 ∧ (0 : Nat) >>> 15 = 0 ∧
      (List.replicate 1024 (7 : Nat)).length = 1024 ∧
      chunkRecv (beBytes 2 0 ++ (List.replicate 1024 7 ++ [])) =
        some (⟨1024, List.replicate 1024 7⟩, [])) := by
  have h1 := (chunkRecv_end_len_low10 32769 (List.replicate 1 7) []
    (by norm_num)).1 (by decide) (by simp)
  have h2 := (chunkRecv_end_len_low10 0 (List.replicate 1024 7) []
    (by norm_num)).2 (by decide) (List.length_replicate _ _)
  exact ⟨⟨by norm_num, by decide, by simp, h1.1, h1.2⟩,
    ⟨by norm_num, by decide, List.length_replicate _ _, h2⟩⟩

/-- Counterexample to C1 as stated: the header `0x8400` has bit 15 set and
its bits 0–14 hold the value 1024, yet `Chunk::recv` reads a payload of
`0x8400 & 0x3ff = 0` bytes. -/
theorem chunkRecv_end_len_counterexample :
    (chunkRecv (beBytes 2 33792 ++ List.replicate 1024 7)).map (fun p => p.1.len) =
        some 0 ∧
      33792 % 2 ^ 15 = 1024 ∧ (0 : Nat) ≠ 1024 := by
  refine ⟨?_, by norm_num, by norm_num⟩
  unfold chunkRecv
  rw [readN_exact 2 _ _ (beBytes_length 2 _)]
  dsimp only
  rw [fromBe_beBytes_of_lt (by norm_num : (33792 : Nat) < 256 ^ 2)]
  rw [if_pos (by decide), show (33792 : Nat) &&& 1023 = 0 by decide, readN_zero]
  rfl

/-! ## Priority lists (`common/src/lib.rs`, `mod priority_list`)

`priority_list::merge` walks the two equal-length vectors in lockstep
(the Rust code asserts equal lengths and zips); a slot of `current` that
is `0` adopts a nonzero value from `other` and counts as one activation;
every other slot is left unchanged. -/

def merge : List Nat → List Nat → List Nat × Nat
  | c :: cs, o :: os =>
    let r := merge cs os
    if c = 0 then
      if o ≠ 0 then (o :: r.1, r.2 + 1) else (c :: r.1, r.2)
    else (c :: r.1, r.2)
  | cs, _ => (cs, 0)

theorem merge_length (cur oth : List Nat) :
    (merge cur oth).1.length = cur.length := by
  induction cur generalizing oth with
  | nil => cases oth <;> simp [merge]
  | cons c cs ih =>
    cases oth with
    | nil => simp [merge]
    | cons o os =>
      by_cases hc : c = 0 <;> by_cases ho : o = 0 <;>
        simp [merge, hc, ho, ih]

/-- C3: `priority_list::merge` sets each zero slot of `current` to the other
vector's nonzero value at that slot, leaves every nonzero slot unchanged,
and returns exactly the number of slots that transitioned from 0 to
nonzero. -/
theorem merge_spec (cur oth : List Nat) (h : cur.length = oth.length) :
    (merge cur oth).1.length = cur.length ∧
      (∀ i, i < cur.length →
        (merge cur oth).1.getD i 0 =
          if cur.getD i 0 = 0 ∧ oth.getD i 0 ≠ 0 then oth.getD i 0
          else cur.getD i 0) ∧
      (merge cur oth).2 =
        (cur.zip oth).countP (fun p => p.1 == 0 && p.2 != 0) := by
  refine ⟨merge_length cur oth, ?_, ?_⟩
  · induction cur generalizing oth with
    | nil => intro i hi; simp at hi
    | cons c cs ih =>
      cases oth with
      | nil => simp at h
      | cons o os =>
        intro i hi
        cases i with
        | zero =>
          by_cases hc : c = 0 <;> by_cases ho : o = 0 <;>
            simp [merge, hc, ho]
        | succ i =>
          have hrec := ih os (by simpa using h) i (by simpa using hi)
          by_cases hc : c = 0 <;> by_cases ho : o = 0 <;>
            simpa [merge, hc, ho] using hrec
  · induction cur generalizing oth with
    | nil => cases oth <;> simp [merge]
    | cons c cs ih =>
      cases oth with
      | nil => simp at h
      | cons o os =>
        have hrec := ih os (by simpa using h)
        by_cases hc : c = 0 <;> by_cases ho : o = 0 <;>
          simp [merge, hc, ho, List.countP_cons, hrec]

/-- Witness for C3: merging `[3, 4]` into `[0, 2]` adopts 3 into the zero
slot, keeps the nonzero slot 2, and reports one activation. -/
theorem merge_spec_witness :
    ([0, 2] : List Nat).length = ([3, 4] : List Nat).length ∧
      ((merge [0, 2] [3, 4]).1.length = ([0, 2] : List Nat).length ∧
        (∀ i, i < ([0, 2] : List Nat).length →
          (merge [0, 2] [3, 4]).1.getD i 0 =
            if ([0, 2] : List Nat).getD i 0 = 0 ∧
                ([3, 4] : List Nat).getD i 0 ≠ 0 then
              ([3, 4] : List Nat).getD i 0
            else ([0, 2] : List Nat).getD i 0) ∧
        (merge [0, 2] [3, 4]).2 =
          (([0, 2] : List Nat).zip [3, 4]).countP
            (fun p => p.1 == 0 && p.2 != 0)) :=
  ⟨rfl, merge_spec [0, 2] [3, 4] rfl⟩

/-! ## Control-file reader (`client/src/main.rs`, `fn read_input`)

The control file is modelled as `Option (List (List String))`: `none` when
the file is missing or unreadable (the Rust `if let Ok(input_file)` guard),
otherwise the list of readable lines, each line given by its
whitespace-separated token list (`split_whitespace`).  The catalog's
name→index `HashMap` is modelled as an association list queried with
`List.lookup`. -/

def applyLine (inverse_map : List (String × Nat)) (out : List Nat)
    (line : List String) : List Nat :=
  match line with
  | [] => out
  | filename :: rest =>
    match inverse_map.lookup filename with
    | none => out
    | some idx =>
      match rest.head? with
      | some w =>
        if w = "NORMAL" then out.set idx 1
        else if w = "HIGH" then out.set idx 4
        else if w = "CRITICAL" then out.set idx 10
        else out
      | none => out

def read_input (file : Option (List (List String)))
    (inverse_map : List (String × Nat)) (out : List Nat) : List Nat :=
  match file with
  | none => out
  | some lines => lines.foldl (applyLine inverse_map) out

/-- The weight (1, 4 or 10) that a single control line assigns to slot `i`,
or `none` when the line does not recognizably target slot `i`. -/
def lineWeight (inverse_map : List (String × Nat)) (i : Nat)
    (line : List String) : Option Nat :=
  match line with
  | [] => none
  | filename :: rest =>
    match inverse_map.lookup filename with
    | none => none
    | some idx =>
      if idx = i then
        match rest.head? with
        | some w =>
          if w = "NORMAL" then some 1
          else if w = "HIGH" then some 4
          else if w = "CRITICAL" then some 10
          else none
        | none => none
      else none

theorem applyLine_length (m : List (String × Nat)) (out : List Nat)
    (line : List String) : (applyLine m out line).length = out.length := by
  rcases line with - | ⟨f, rest⟩
  · rfl
  · cases hl : m.lookup f with
    | none => simp [applyLine, hl]
    | some idx =>
      cases hw : rest.head? with
      | none => simp [applyLine, hl, hw]
      | some w =>
        by_cases h1 : w = "NORMAL" <;> by_cases h2 : w = "HIGH" <;>
          by_cases h3 : w = "CRITICAL" <;>
          simp [applyLine, hl, hw, h1, h2, h3]

theorem applyLine_getD_some {m : List (String × Nat)} {i w : Nat}
    {line : List String} (out : List Nat) (d : Nat)
    (h : lineWeight m i line = some w) (hi : i < out.length) :
    (applyLine m out line).getD i d = w := by
  rcases line with - | ⟨f, rest⟩
  · exact absurd h (by simp [lineWeight])
  · cases hl : m.lookup f with
    | none => rw [lineWeight, hl] at h; exact absurd h (by simp)
    | some idx =>
      by_cases hii : idx = i
      · subst hii
        cases hw : rest.head? with
        | none => rw [lineWeight, hl, hw] at h; simp at h
        | some w' =>
          rw [lineWeight, hl, hw] at h
          by_cases h1 : w' = "NORMAL" <;> by_cases h2 : w' = "HIGH" <;>
            by_cases h3 : w' = "CRITICAL" <;>
            simp_all [applyLine, hl, hw, h1, h2, h3,
              List.getD_eq_getElem?_getD, List.getElem?_set_self hi]
      · rw [lineWeight, hl] at h
        simp [hii] at h

theorem applyLine_getD_none {m : List (String × Nat)} {i : Nat}
    {line : List String} (out : List Nat) (d : Nat)
    (h : lineWeight m i line = none) :
    (applyLine m out line).getD i d = out.getD i d := by
  rcases line with - | ⟨f, rest⟩
  · rfl
  · cases hl : m.lookup f with
    | none => simp [applyLine, hl]
    | some idx =>
      cases hw : rest.head? with
      | none => simp [applyLine, hl, hw]
      | some w' =>
        rw [lineWeight, hl, hw] at h
        by_cases hii : idx = i
        · subst hii
          by_cases h1 : w' = "NORMAL" <;> by_cases h2 : w' = "HIGH" <;>
            by_cases h3 : w' = "CRITICAL" <;>
            simp_all [applyLine, hl, hw, h1, h2, h3]
        · by_cases h1 : w' = "NORMAL" <;> by_cases h2 : w' = "HIGH" <;>
            by_cases h3 : w' = "CRITICAL" <;>
            simp [applyLine, hl, hw, h1, h2, h3,
              List.getD_eq_getElem?_getD, List.getElem?_set_ne hii]

theorem foldl_applyLine_getD (m : List (String × Nat))
    (lines : List (List String)) (out : List Nat) (i d : Nat)
    (hi : i < out.length) :
    (lines.foldl (applyLine m) out).getD i d =
      (lines.filterMap (lineWeight m i)).foldl (fun _ w => w) (out.getD i d) := by
  induction lines generalizing out with
  | nil => rfl
  | cons line rest ih =>
    rw [List.foldl_cons, List.filterMap_cons]
    have hi' : i < (applyLine m out line).length := by
      rw [applyLine_length]; exact hi
    cases hw : lineWeight m i line with
    | none =>
      rw [ih (applyLine m out line) hi', applyLine_getD_none out d hw]
    | some w =>
      rw [List.foldl_cons, ih (applyLine m out line) hi',
        applyLine_getD_some out d hw hi]

/-- C7: `read_input` leaves the whole vector unchanged when the control file
is missing or unreadable; otherwise it processes lines in order, setting
slot `i` to 1/4/10 for each line whose first token maps to `i` and whose
second token is NORMAL/HIGH/CRITICAL (the last such line wins, captured by
the overriding fold), while lines with an unknown filename or an
unrecognized keyword change nothing. -/
theorem read_input_spec (m : List (String × Nat)) (lines : List (List String))
    (out : List Nat) (i d : Nat) (hi : i < out.length) :
    read_input none m out = out ∧
      (read_input (some lines) m out).getD i d =
        (lines.filterMap (lineWeight m i)).foldl (fun _ w => w) (out.getD i d) ∧
      (∀ name rest, m.lookup name = none → applyLine m out (name :: rest) = out) ∧
      (∀ name rest w idx, m.lookup name = some idx → rest.head? = some w →
        w ≠ "NORMAL" → w ≠ "HIGH" → w ≠ "CRITICAL" →
        applyLine m out (name :: rest) = out) := by
  refine ⟨rfl, foldl_applyLine_getD m lines out i d hi, ?_, ?_⟩
  · intro name rest h
    simp [applyLine, h]
  · intro name rest w idx hm hw h1 h2 h3
    simp [applyLine, hm, hw, h1, h2, h3]

/-- Witness for C7: a recognized NORMAL line for `a`, an unrecognized
keyword line for `b`, and an unknown filename `c`. -/
theorem read_input_spec_witness :
    (0 : Nat) < ([9, 9] : List Nat).length ∧
      (read_input none [("a", 0), ("b", 1)] [9, 9] = [9, 9] ∧
        (read_input (some [["a", "NORMAL"], ["b", "WAT"], ["c", "HIGH"]])
            [("a", 0), ("b", 1)] [9, 9]).getD 0 0 =
          (([["a", "NORMAL"], ["b", "WAT"], ["c", "HIGH"]]).filterMap
              (lineWeight [("a", 0), ("b", 1)] 0)).foldl (fun _ w => w)
            (([9, 9] : List Nat).getD 0 0) ∧
        (∀ name rest, ([("a", 0), ("b", 1)] : List (String × Nat)).lookup name = none →
          applyLine [("a", 0), ("b", 1)] [9, 9] (name :: rest) = [9, 9]) ∧
        (∀ name rest w idx,
          ([("a", 0), ("b", 1)] : List (String × Nat)).lookup name = some idx →
          rest.head? = some w → w ≠ "NORMAL" → w ≠ "HIGH" → w ≠ "CRITICAL" →
          applyLine [("a", 0), ("b", 1)] [9, 9] (name :: rest) = [9, 9])) :=
  ⟨by norm_num, read_input_spec [("a", 0), ("b", 1)]
    [["a", "NORMAL"], ["b", "WAT"], ["c", "HIGH"]] [9, 9] 0 0 (by norm_num)⟩

/-! ## FileList codec (`common/src/lib.rs`, `impl Packet for FileList`)

A catalog entry is a `(name, size)` pair; a name is modelled by its UTF-8
byte sequence (a `List Nat`).  `utf8Valid` models the validity check done
by `str::from_utf8(..).unwrap()` in `FileList::recv` (standard UTF-8:
no overlong forms, no surrogates, max U+10FFFF). -/

/-- A UTF-8 continuation byte: `0x80 ..= 0xBF`. -/
def utf8Cont (c : Nat) : Bool := 0x80 ≤ c && c ≤ 0xBF

/-- Consume one UTF-8-encoded scalar value from the front of the byte list,
returning the remainder, or `none` when the front is not a valid encoding
(wrong continuation bytes, overlong form, surrogate, or above U+10FFFF). -/
def utf8Step : List Nat → Option (List Nat)
  | [] => none
  | b :: rest =>
    if b ≤ 0x7F then some rest
    else if 0xC2 ≤ b ∧ b ≤ 0xDF then
      match rest with
      | c1 :: r => if utf8Cont c1 then some r else none
      | [] => none
    else if 0xE0 ≤ b ∧ b ≤ 0xEF then
      match rest with
      | c1 :: c2 :: r =>
        if (if b = 0xE0 then 0xA0 ≤ c1 && c1 ≤ 0xBF
            else if b = 0xED then 0x80 ≤ c1 && c1 ≤ 0x9F
            else utf8Cont c1) && utf8Cont c2 then some r else none
      | _ => none
    else if 0xF0 ≤ b ∧ b ≤ 0xF4 then
      match rest with
      | c1 :: c2 :: c3 :: r =>
        if (if b = 0xF0 then 0x90 ≤ c1 && c1 ≤ 0xBF
            else if b = 0xF4 then 0x80 ≤ c1 && c1 ≤ 0x8F
            else utf8Cont c1) && utf8Cont c2 && utf8Cont c3 then some r
        else none
      | _ => none
    else none

/-- Fuelled whole-input UTF-8 validity; the fuel only needs to cover the
number of scalars, so the byte length always suffices. -/
def utf8ValidAux : Nat → List Nat → Bool
  | _, [] => true
  | 0, _ :: _ => false
  | f + 1, b :: rest =>
    match utf8Step (b :: rest) with
    | some r => utf8ValidAux f r
    | none => false

/-- Validity of a byte list as UTF-8, as checked by `str::from_utf8`. -/
def utf8Valid (l : List Nat) : Bool := utf8ValidAux l.length l

theorem utf8Step_length {l r : List Nat} (h : utf8Step l = some r) :
    r.length < l.length := by
  rcases l with - | ⟨b, rest⟩
  · simp [utf8Step] at h
  by_cases g1 : b ≤ 0x7F
  · simp only [utf8Step, if_pos g1, Option.some.injEq] at h
    subst h
    simp
  by_cases g2 : 0xC2 ≤ b ∧ b ≤ 0xDF
  · rcases rest with - | ⟨c1, r'⟩ <;>
      simp only [utf8Step, if_neg g1, if_pos g2] at h
    · exact absurd h (by simp)
    · split at h <;> simp_all <;> omega
  by_cases g3 : 0xE0 ≤ b ∧ b ≤ 0xEF
  · rcases rest with - | ⟨c1, rest⟩ <;> [skip; rcases rest with - | ⟨c2, rest⟩] <;>
      simp only [utf8Step, if_neg g1, if_neg g2, if_pos g3] at h
    · exact absurd h (by simp)
    · exact absurd h (by simp)
    · split at h <;> simp_all <;> omega
  by_cases g4 : 0xF0 ≤ b ∧ b ≤ 0xF4
  · rcases rest with - | ⟨c1, rest⟩ <;> [skip;
      rcases rest with - | ⟨c2, rest⟩] <;> [skip; skip;
      rcases rest with - | ⟨c3, rest⟩] <;>
      simp only [utf8Step, if_neg g1, if_neg g2, if_neg g3, if_pos g4] at h
    · exact absurd h (by simp)
    · exact absurd h (by simp)
    · exact absurd h (by simp)
    · split at h <;> simp_all <;> omega
  · simp [utf8Step, g1, g2, g3, g4] at h

theorem utf8Step_append {a r : List Nat} (b : List Nat)
    (h : utf8Step a = some r) : utf8Step (a ++ b) = some (r ++ b) := by
  rcases a with - | ⟨x, rest⟩
  · simp [utf8Step] at h
  by_cases g1 : x ≤ 0x7F
  · simp only [List.cons_append, utf8Step, if_pos g1, Option.some.injEq] at h ⊢
    rw [h]
  by_cases g2 : 0xC2 ≤ x ∧ x ≤ 0xDF
  · rcases rest with - | ⟨c1, rest⟩ <;>
      simp only [utf8Step, if_neg g1, if_pos g2, List.cons_append] at h ⊢
    · exact absurd h (by simp)
    · split at h <;> simp_all
  by_cases g3 : 0xE0 ≤ x ∧ x ≤ 0xEF
  · rcases rest with - | ⟨c1, rest⟩ <;> [skip; rcases rest with - | ⟨c2, rest⟩] <;>
      simp only [utf8Step, if_neg g1, if_neg g2, if_pos g3,
        List.cons_append, List.nil_append] at h ⊢
    · exact absurd h (by simp)
    · exact absurd h (by simp)
    · split at h <;> simp_all
  by_cases g4 : 0xF0 ≤ x ∧ x ≤ 0xF4
  · rcases rest with - | ⟨c1, rest⟩ <;> [skip;
      rcases rest with - | ⟨c2, rest⟩] <;> [skip; skip;
      rcases rest with - | ⟨c3, rest⟩] <;>
      simp only [utf8Step, if_neg g1, if_neg g2, if_neg g3, if_pos g4,
        List.cons_append, List.nil_append] at h ⊢
    · exact absurd h (by simp)
    · exact absurd h (by simp)
    · exact absurd h (by simp)
    · split at h <;> simp_all
  · simp [utf8Step, g1, g2, g3, g4] at h

theorem utf8ValidAux_congr :
    ∀ (f f' : Nat) (l : List Nat), l.length ≤ f → l.length ≤ f' →
      utf8ValidAux f l = utf8ValidAux f' l := by
  intro f
  induction f using Nat.strong_induction_on with
  | _ f ih =>
    intro f' l hf hf'
    rcases l with - | ⟨b, rest⟩
    · cases f <;> cases f' <;> rfl
    · rcases f with - | f
      · simp at hf
      rcases f' with - | f'
      · simp at hf'
      simp only [utf8ValidAux]
      cases hs : utf8Step (b :: rest) with
      | none => rfl
      | some r =>
        have hr := utf8Step_length hs
        simp only [List.length_cons] at hf hf' hr
        exact ih f (by omega) f' r (by omega) (by omega)

theorem utf8Valid_cons_eq (b : Nat) (rest : List Nat) :
    utf8Valid (b :: rest) =
      match utf8Step (b :: rest) with
      | some r => utf8Valid r
      | none => false := by
  unfold utf8Valid
  simp only [List.length_cons, utf8ValidAux]
  cases hs : utf8Step (b :: rest) with
  | none => rfl
  | some r =>
    have hr := utf8Step_length hs
    simp only [List.length_cons] at hr
    exact utf8ValidAux_congr _ _ r (by omega) (by omega)

theorem utf8Valid_append :
    ∀ (a b : List Nat), utf8Valid a = true → utf8Valid b = true →
      utf8Valid (a ++ b) = true := by
  have H : ∀ (n : Nat) (a : List Nat), a.length ≤ n → ∀ b,
      utf8Valid a = true → utf8Valid b = true →
      utf8Valid (a ++ b) = true := by
    intro n
    induction n with
    | zero =>
      intro a ha b h1 h2
      have hnil : a = [] := by
        rcases a with - | ⟨x, t⟩
        · rfl
        · simp at ha
      subst hnil
      simpa using h2
    | succ n ih =>
      intro a ha b h1 h2
      rcases a with - | ⟨x, t⟩
      · simpa using h2
      rw [utf8Valid_cons_eq] at h1
      cases hs : utf8Step (x :: t) with
      | none => rw [hs] at h1; exact absurd h1 (by simp)
      | some r =>
        rw [hs] at h1
        dsimp only at h1
        have hr := utf8Step_length hs
        rw [List.cons_append, utf8Valid_cons_eq]
        have hstep := utf8Step_append b hs
        rw [List.cons_append] at hstep
        rw [hstep]
        dsimp only
        have hrn : r.length ≤ n := by
          simp only [List.length_cons] at ha hr
          omega
        exact ih r hrn b h1 h2
  intro a b h1 h2
  exact H a.length a (Nat.le_refl _) b h1 h2

/-- Find the first `0x00` byte: `some (before, after)` with the separator
removed, `none` when no separator exists. -/
def breakAtZero : List Nat → Option (List Nat × List Nat)
  | [] => none
  | b :: r =>
    if b = 0 then some ([], r)
    else
      match breakAtZero r with
      | none => none
      | some (pre, post) => some (b :: pre, post)

/-- Rust's `str::splitn(n, sep)` at the byte level with separator `0x00`:
at most `n` fields, the last field keeping any remaining separators;
`splitn 0` yields no fields at all. -/
def splitn : Nat → List Nat → List (List Nat)
  | 0, _ => []
  | 1, s => [s]
  | n + 2, s =>
    match breakAtZero s with
    | none => [s]
    | some (pre, post) => pre :: splitn (n + 1) post

/-- The name fold in `FileList::send`: each entry contributes
`"\0" + name`, so the result carries a leading separator. -/
def joinNames : List (List Nat) → List Nat
  | [] => []
  | n :: rest => 0 :: (n ++ joinNames rest)

/-- The names joined by single `0x00` separators, with no leading or
trailing separator (the wire form, i.e. `joinNames` minus its head). -/
def sepJoin : List (List Nat) → List Nat
  | [] => []
  | [n] => n
  | n :: rest => n ++ 0 :: sepJoin rest

/-- `slice::chunks(n)`: the list cut into consecutive pieces of `n`
elements, the final piece possibly shorter. -/
def chunksOf (n : Nat) (l : List Nat) : List (List Nat) :=
  if l.isEmpty ∨ n = 0 then [] else l.take n :: chunksOf n (l.drop n)
termination_by l.length
decreasing_by
  rename_i h
  simp only [List.isEmpty_iff, not_or] at h
  have : l.length ≠ 0 := fun hc => h.1 (List.eq_nil_of_length_eq_zero hc)
  simp only [List.length_drop]
  omega

/-- `<FileList as Packet>::send`: the catalog count (8-byte big-endian),
each size (8-byte big-endian), the byte length of the separator-joined
names, then those name bytes.  Returns `none` exactly when the catalog is
empty: there the Rust code evaluates `names.as_bytes()[1..]` on an empty
string, an out-of-bounds slice (panic). -/
def fileListSend (catalog : List (List Nat × Nat)) : Option (List Nat) :=
  let joined := joinNames (catalog.map Prod.fst)
  if joined.length < 1 then none
  else
    some (beBytes 8 catalog.length ++
      catalog.foldl (fun a p => a ++ beBytes 8 p.2) [] ++
      beBytes 8 (joined.drop 1).length ++ joined.drop 1)

/-- `<FileList as Packet>::recv`: read the count, `count * 8` size bytes
(decoded in 8-byte groups), the names length, and the name bytes, which
must be valid UTF-8 (`str::from_utf8(..).unwrap()`) and are split into
`count` fields by the `0x00` separator and zipped with the sizes. -/
def fileListRecv (s : List Nat) : Option (List (List Nat × Nat) × List Nat) :=
  match readN 8 s with
  | none => none
  | some (lenB, s1) =>
    let len := fromBe lenB
    match readN (len * 8) s1 with
    | none => none
    | some (sizesB, s2) =>
      let filesizes := (chunksOf 8 sizesB).map fromBe
      match readN 8 s2 with
      | none => none
      | some (nsB, s3) =>
        match readN (fromBe nsB) s3 with
        | none => none
        | some (buf, s4) =>
          if utf8Valid buf then some ((splitn len buf).zip filesizes, s4)
          else none

theorem joinNames_drop_one :
    ∀ (ns : List (List Nat)), ns ≠ [] → (joinNames ns).drop 1 = sepJoin ns := by
  intro ns
  induction ns with
  | nil => intro h; exact absurd rfl h
  | cons n rest ih =>
    intro _
    rcases rest with - | ⟨m, rest⟩
    · simp [joinNames, sepJoin]
    · have hrec := ih (by simp)
      rw [show sepJoin (n :: m :: rest) = n ++ 0 :: sepJoin (m :: rest) from rfl,
        show joinNames (n :: m :: rest) = 0 :: (n ++ joinNames (m :: rest)) from rfl,
        List.drop_succ_cons, List.drop_zero, ← hrec,
        show joinNames (m :: rest) = 0 :: (m ++ joinNames rest) from rfl]
      simp

theorem joinNames_length_pos (ns : List (List Nat)) (h : ns ≠ []) :
    1 ≤ (joinNames ns).length := by
  rcases ns with - | ⟨n, rest⟩
  · exact absurd rfl h
  · simp [joinNames]

theorem foldl_append_beBytes (catalog : List (List Nat × Nat)) :
    ∀ acc, catalog.foldl (fun a p => a ++ beBytes 8 p.2) acc =
      acc ++ (catalog.map (fun p => beBytes 8 p.2)).flatten := by
  induction catalog with
  | nil => intro acc; simp
  | cons p rest ih =>
    intro acc
    simp only [List.foldl_cons, List.map_cons, List.flatten_cons, ih,
      List.append_assoc]

theorem chunksOf_flatten :
    ∀ (blocks : List (List Nat)), (∀ bl ∈ blocks, bl.length = 8) →
      chunksOf 8 blocks.flatten = blocks := by
  intro blocks
  induction blocks with
  | nil => intro _; rw [List.flatten_nil, chunksOf]; simp
  | cons bl rest ih =>
    intro h
    have hbl : bl.length = 8 := h bl (by simp)
    have hne : (bl ++ rest.flatten).isEmpty = false := by
      rcases bl with - | ⟨x, t⟩
      · simp at hbl
      · simp
    rw [List.flatten_cons, chunksOf]
    rw [if_neg (by simp [hne])]
    rw [List.take_left' hbl, List.drop_left' hbl,
      ih (fun b hb => h b (by simp [hb]))]

theorem breakAtZero_append (a b : List Nat) (h : ¬ 0 ∈ a) :
    breakAtZero (a ++ 0 :: b) = some (a, b) := by
  induction a with
  | nil => simp [breakAtZero]
  | cons x t ih =>
    simp only [List.mem_cons, not_or] at h
    rw [List.cons_append, breakAtZero, if_neg (fun hc => h.1 hc.symm),
      ih h.2]

theorem splitn_sepJoin :
    ∀ (names : List (List Nat)), names ≠ [] →
      (∀ nb ∈ names, ¬ 0 ∈ nb) →
      splitn names.length (sepJoin names) = names := by
  intro names
  induction names with
  | nil => intro h; exact absurd rfl h
  | cons n rest ih =>
    intro _ hz
    rcases rest with - | ⟨m, rest⟩
    · simp [splitn, sepJoin]
    · have hlen : (n :: m :: rest).length = rest.length + 2 := by simp
      rw [hlen, sepJoin, splitn,
        breakAtZero_append n _ (hz n (by simp))]
      have hrec := ih (by simp)
        (fun nb hb => hz nb (by simp [List.mem_cons] at hb ⊢; tauto))
      simp only [List.length_cons] at hrec
      dsimp only
      rw [hrec]
      simp

theorem utf8Valid_sepJoin :
    ∀ (names : List (List Nat)), (∀ nb ∈ names, utf8Valid nb = true) →
      utf8Valid (sepJoin names) = true := by
  intro names
  induction names with
  | nil => intro _; rfl
  | cons n rest ih =>
    intro h
    rcases rest with - | ⟨m, rest⟩
    · exact h n (by simp)
    · rw [show sepJoin (n :: m :: rest) = n ++ ([0] ++ sepJoin (m :: rest)) by
        simp [sepJoin]]
      refine utf8Valid_append n _ (h n (by simp)) ?_
      refine utf8Valid_append [0] _ (by decide) ?_
      exact ih (fun nb hb => h nb (by simp [List.mem_cons] at hb ⊢; tauto))

theorem flatten_beBytes_length (catalog : List (List Nat × Nat)) :
    ((catalog.map (fun p => beBytes 8 p.2)).flatten).length =
      catalog.length * 8 := by
  induction catalog with
  | nil => rfl
  | cons p rest ih =>
    simp only [List.map_cons, List.flatten_cons, List.length_append,
      beBytes_length, ih, List.length_cons]
    ring

theorem map_fromBe_beBytes (catalog : List (List Nat × Nat))
    (h : ∀ p ∈ catalog, p.2 < 2 ^ 64) :
    (catalog.map (fun p => beBytes 8 p.2)).map fromBe =
      catalog.map Prod.snd := by
  rw [List.map_map]
  refine List.map_congr_left ?_
  intro p hp
  have h2 : (256 : Nat) ^ 8 = 2 ^ 64 := by norm_num
  simp only [Function.comp_apply]
  exact fromBe_beBytes_of_lt (h2 ▸ h p hp)

/-- C2 (the claim, checked against the code): decoding inverts encoding for
every nonempty catalog of null-free valid-UTF-8 names with sizes below
2^64, but `FileList::send` on the **empty** catalog evaluates
`names.as_bytes()[1..]` on an empty string and panics (modelled as `none`),
so the round trip promised for N = 0 cannot happen. -/
theorem fileList_roundtrip :
    fileListSend [] = none ∧
      ∀ (catalog : List (List Nat × Nat)), catalog ≠ [] →
        (∀ p ∈ catalog, utf8Valid p.1 = true ∧ ¬ 0 ∈ p.1 ∧ p.2 < 2 ^ 64) →
        catalog.length < 2 ^ 64 →
        (sepJoin (catalog.map Prod.fst)).length < 2 ^ 64 →
        (fileListSend catalog).bind fileListRecv = some (catalog, []) := by
  constructor
  · rfl
  intro catalog hne hp hN hL
  have hnames_ne : catalog.map Prod.fst ≠ [] := by
    simpa using hne
  have hdrop : (joinNames (catalog.map Prod.fst)).drop 1 =
      sepJoin (catalog.map Prod.fst) :=
    joinNames_drop_one _ hnames_ne
  have hjoin_pos := joinNames_length_pos _ hnames_ne
  have h2pow : (256 : Nat) ^ 8 = 2 ^ 64 := by norm_num
  have hnoz : ∀ nb ∈ catalog.map Prod.fst, ¬ 0 ∈ nb := by
    intro nb hb
    obtain ⟨p, hpmem, hpe⟩ := List.mem_map.mp hb
    exact hpe ▸ (hp p hpmem).2.1
  have hval : ∀ nb ∈ catalog.map Prod.fst, utf8Valid nb = true := by
    intro nb hb
    obtain ⟨p, hpmem, hpe⟩ := List.mem_map.mp hb
    exact hpe ▸ (hp p hpmem).1
  unfold fileListSend
  rw [if_neg (by omega), hdrop, Option.some_bind]
  rw [foldl_append_beBytes catalog []]
  simp only [List.nil_append, List.append_assoc]
  unfold fileListRecv
  rw [readN_exact 8 _ _ (beBytes_length 8 _)]
  dsimp only
  rw [fromBe_beBytes_of_lt (show catalog.length < 256 ^ 8 by rw [h2pow]; exact hN)]
  rw [readN_exact (catalog.length * 8) _ _ (flatten_beBytes_length catalog)]
  dsimp only
  rw [readN_exact 8 _ _ (beBytes_length 8 _)]
  dsimp only
  rw [fromBe_beBytes_of_lt
    (show (sepJoin (catalog.map Prod.fst)).length < 256 ^ 8 by rw [h2pow]; exact hL)]
  rw [readN_all _ _ rfl]
  dsimp only
  rw [if_pos (utf8Valid_sepJoin _ hval)]
  rw [chunksOf_flatten _ (by
    intro bl hbl
    obtain ⟨p, -, hpe⟩ := List.mem_map.mp hbl
    rw [← hpe, beBytes_length])]
  rw [map_fromBe_beBytes _ (fun p hpmem => (hp p hpmem).2.2)]
  rw [show catalog.length = (catalog.map Prod.fst).length by simp]
  rw [splitn_sepJoin _ hnames_ne hnoz]
  rw [List.zip_map']
  simp

/-- Witness for C2's round-trip half at the one-entry catalog
`[("a", 5)]` (name byte 97). -/
theorem fileList_roundtrip_witness :
    ([([97], 5)] : List (List Nat × Nat)) ≠ [] ∧
      (∀ p ∈ ([([97], 5)] : List (List Nat × Nat)),
        utf8Valid p.1 = true ∧ ¬ 0 ∈ p.1 ∧ p.2 < 2 ^ 64) ∧
      ([([97], 5)] : List (List Nat × Nat)).length < 2 ^ 64 ∧
      (sepJoin (([([97], 5)] : List (List Nat × Nat)).map Prod.fst)).length <
        2 ^ 64 ∧
      (fileListSend [([97], 5)]).bind fileListRecv =
        some ([([97], 5)], []) :=
  ⟨by decide, by decide, by norm_num, by decide,
    fileList_roundtrip.2 [([97], 5)] (by decide) (by decide) (by norm_num)
      (by decide)⟩

/-! ## Round scheduler (server `WorkerContext::execute`, client `main` loop)

Both binaries run the same weighted round-robin loop: after each priority
merge, while the activated counter is nonzero, a *pass* walks all catalog
indices in ascending order; an index with zero priority or already `Done`
is skipped; otherwise the backing file resource is opened lazily
(`get_or_insert_with`), up to `priority` chunk exchanges are performed, and
on a terminal chunk the slot is marked done, the resource dropped, and the
counter decremented.

The per-connection state of one catalog index is a `Slot`: its priority,
its file size in bytes, the `done` flag, and the optional open resource
(`file`), carrying the current read offset.  A chunk exchange for a file
of size `size` at offset `pos` transfers `min 1024 (size - pos)` bytes and
is terminal iff that is less than 1024 (`Chunk::end`).  `Ev` records the
observable per-index events: resource open, one chunk exchange, resource
release. -/

inductive Ev where
  | fopen (i : Nat)
  | chunk (i : Nat) (len : Nat)
  | fclose (i : Nat)
deriving Repr, DecidableEq

def Ev.idx : Ev → Nat
  | .fopen i => i
  | .chunk i _ => i
  | .fclose i => i

def Ev.isChunkAt (i : Nat) : Ev → Bool
  | .chunk j _ => j == i
  | _ => false

def Ev.isOpenAt (i : Nat) : Ev → Bool
  | .fopen j => j == i
  | _ => false

def Ev.isCloseAt (i : Nat) : Ev → Bool
  | .fclose j => j == i
  | _ => false

def Ev.isChunk : Ev → Bool
  | .chunk _ _ => true
  | _ => false

structure Slot where
  prio : Nat
  size : Nat
  done : Bool
  file : Option Nat
deriving Repr, DecidableEq

/-- Up to `quota` chunk exchanges from offset `pos` of a `size`-byte file:
returns the final offset, the chunk lengths exchanged, and whether a
terminal chunk (length < 1024) was observed (the `break` in the quantum
loop). -/
def serveChunks (size pos : Nat) : Nat → Nat × List Nat × Bool
  | 0 => (pos, [], false)
  | q + 1 =>
    let len := min 1024 (size - pos)
    if len < 1024 then (pos + len, [len], true)
    else
      let r := serveChunks size (pos + 1024) q
      (r.1, 1024 :: r.2.1, r.2.2)

/-- One scheduler visit of the slot at catalog index `i`: skip it when its
priority is zero or it is done; otherwise open the resource if absent,
exchange up to `prio` chunks, and on a terminal chunk mark done and drop
the resource.  Returns the new slot, its events, and 1 iff it newly became
done (the `to_download -= 1`). -/
def serveSlot (i : Nat) (s : Slot) : Slot × List Ev × Nat :=
  if s.prio = 0 ∨ s.done then (s, [], 0)
  else
    let pos := s.file.getD 0
    let openEvs : List Ev := match s.file with
      | none => [Ev.fopen i]
      | some _ => []
    let r := serveChunks s.size pos s.prio
    let chunkEvs := r.2.1.map (Ev.chunk i)
    if r.2.2 then
      ({ s with done := true, file := none },
        openEvs ++ chunkEvs ++ [Ev.fclose i], 1)
    else
      ({ s with file := some r.1 }, openEvs ++ chunkEvs, 0)

/-- One pass over all indices in ascending order, starting at index `i`:
the slots after the pass, the events in order, and the number of slots
that newly became done during the pass. -/
def servePass (i : Nat) : List Slot → List Slot × List Ev × Nat
  | [] => ([], [], 0)
  | s :: rest =>
    let r1 := serveSlot i s
    let r2 := servePass (i + 1) rest
    (r1.1 :: r2.1, r1.2.1 ++ r2.2.1, r1.2.2 + r2.2.2)

/-- The round's transfer loop: repeat passes while the activated counter
`td` is nonzero, subtracting each pass's newly-done count (`fuel` bounds
the number of passes; any fuel at least `passMeasure` suffices). -/
def roundLoop : Nat → List Slot → Nat → List Slot × Nat × List Ev
  | 0, slots, td => (slots, td, [])
  | f + 1, slots, td =>
    if td = 0 then (slots, td, [])
    else
      let r := servePass 0 slots
      let q := roundLoop f r.1 (td - r.2.2)
      (q.1, q.2.1, r.2.1 ++ q.2.2)

/-- Chunks still to exchange before the slot reaches done, counting the
terminal chunk; zero for skipped (paused or done) slots. -/
def chunksLeft (s : Slot) : Nat :=
  if s.prio ≠ 0 ∧ s.done = false then (s.size - s.file.getD 0) / 1024 + 1
  else 0

def passMeasure (slots : List Slot) : Nat := (slots.map chunksLeft).sum

/-- A slot eligible for service: nonzero priority, not done. -/
def activeB (s : Slot) : Bool := !(s.prio == 0) && !s.done

/-- The number of slots eligible for service. -/
def activeCount (slots : List Slot) : Nat := slots.countP activeB

/-- The resource phase of a slot: 0 fresh (no resource yet), 1 open
(resource held), 2 done (resource released).  It only ever increases. -/
def phase (s : Slot) : Nat := if s.done then 2 else if s.file.isSome then 1 else 0

/-- Offsets never run past the file size. -/
def posLe (slots : List Slot) : Prop := ∀ s ∈ slots, s.file.getD 0 ≤ s.size

/-- `priority_list::merge` acting on the slots' priority fields, as in the
round setup of both binaries, returning the activated count. -/
def mergeSlots : List Slot → List Nat → List Slot × Nat
  | s :: ss, o :: os =>
    let r := mergeSlots ss os
    if s.prio = 0 then
      if o ≠ 0 then ({ s with prio := o } :: r.1, r.2 + 1)
      else (s :: r.1, r.2)
    else (s :: r.1, r.2)
  | ss, _ => (ss, 0)

/-- A whole connection: one round per received priority vector; each round
merges then drives the transfer loop to completion. -/
def session : List (List Nat) → List Slot → List Slot × List Ev
  | [], slots => (slots, [])
  | prios :: rest, slots =>
    let m := mergeSlots slots prios
    let r := roundLoop (passMeasure m.1) m.1 m.2
    let q := session rest r.1
    (q.1, r.2.2 ++ q.2)

/-- `initialize_handlers` and `priority_list::new`: all priorities zero,
nothing done, no resource open. -/
def initSlots (sizes : List Nat) : List Slot :=
  sizes.map (fun sz => ⟨0, sz, false, none⟩)

theorem serveChunks_spec :
    ∀ (q size pos : Nat), pos ≤ size →
      (serveChunks size pos q).1 ≤ size ∧
      (serveChunks size pos q).2.1.length ≤ q ∧
      (1 ≤ q → 1 ≤ (serveChunks size pos q).2.1.length) ∧
      ((serveChunks size pos q).2.2 = true →
        (serveChunks size pos q).2.1.length = (size - pos) / 1024 + 1) ∧
      ((serveChunks size pos q).2.2 = false →
        (size - (serveChunks size pos q).1) / 1024 + 1 +
          (serveChunks size pos q).2.1.length = (size - pos) / 1024 + 1) := by
  intro q
  induction q with
  | zero =>
    intro size pos hle
    simp [serveChunks]
    exact hle
  | succ q ih =>
    intro size pos hle
    by_cases hl : min 1024 (size - pos) < 1024
    · have hsp : size - pos < 1024 := by omega
      simp only [serveChunks, if_pos hl]
      refine ⟨by omega, by simp, fun _ => by simp, fun _ => ?_, fun hf => by simp at hf⟩
      simp only [List.length_cons, List.length_nil]
      omega
    · have hsp : 1024 ≤ size - pos := by omega
      have hmin : min 1024 (size - pos) = 1024 := by omega
      have hrec := ih size (pos + 1024) (by omega)
      simp only [serveChunks, if_neg hl]
      refine ⟨hrec.1, by simpa using hrec.2.1, fun _ => by simp,
        fun hfin => ?_, fun hfin => ?_⟩
      · have := hrec.2.2.2.1 hfin
        simp only [List.length_cons, this]
        omega
      · have := hrec.2.2.2.2 hfin
        simp only [List.length_cons]
        omega

theorem serveChunks_fin_iff :
    ∀ (q size pos : Nat),
      (serveChunks size pos q).2.2 = true ↔
      ∃ l ∈ (serveChunks size pos q).2.1, l < 1024 := by
  intro q
  induction q with
  | zero => intro size pos; simp [serveChunks]
  | succ q ih =>
    intro size pos
    by_cases hl : min 1024 (size - pos) < 1024
    · simp only [serveChunks, if_pos hl]
      simp [hl]
    · simp only [serveChunks, if_neg hl]
      rw [ih size (pos + 1024)]
      simp

theorem serveSlot_skip (i : Nat) (s : Slot) (h : s.prio = 0 ∨ s.done = true) :
    serveSlot i s = (s, [], 0) := by
  unfold serveSlot
  rw [if_pos h]

theorem serveSlot_eq (i : Nat) (s : Slot) (h : ¬(s.prio = 0 ∨ s.done = true)) :
    serveSlot i s =
      ((if (serveChunks s.size (s.file.getD 0) s.prio).2.2 then
          { s with done := true, file := none }
        else { s with file := some (serveChunks s.size (s.file.getD 0) s.prio).1 }),
       (if s.file = none then [Ev.fopen i] else []) ++
         (serveChunks s.size (s.file.getD 0) s.prio).2.1.map (Ev.chunk i) ++
         (if (serveChunks s.size (s.file.getD 0) s.prio).2.2 then [Ev.fclose i]
          else []),
       if (serveChunks s.size (s.file.getD 0) s.prio).2.2 then 1 else 0) := by
  unfold serveSlot
  rw [if_neg h]
  cases hfe : s.file <;> dsimp only <;> split <;> simp

theorem serveSlot_prio_size (i : Nat) (s : Slot) :
    (serveSlot i s).1.prio = s.prio ∧ (serveSlot i s).1.size = s.size := by
  by_cases h : s.prio = 0 ∨ s.done = true
  · rw [serveSlot_skip i s h]
    exact ⟨rfl, rfl⟩
  · rw [serveSlot_eq i s h]
    dsimp only
    split <;> exact ⟨rfl, rfl⟩

theorem serveSlot_idx (i : Nat) (s : Slot) :
    ∀ e ∈ (serveSlot i s).2.1, e.idx = i := by
  intro e he
  by_cases h : s.prio = 0 ∨ s.done = true
  · rw [serveSlot_skip i s h] at he
    simp at he
  · rw [serveSlot_eq i s h] at he
    dsimp only at he
    simp only [List.mem_append, List.mem_map] at he
    rcases he with (he | ⟨l, -, he⟩) | he
    · split at he <;> simp_all [Ev.idx]
    · rw [← he]
      rfl
    · split at he <;> simp_all [Ev.idx]

theorem serveChunks_len_le :
    ∀ (q size pos : Nat), (serveChunks size pos q).2.1.length ≤ q := by
  intro q
  induction q with
  | zero => intro size pos; simp [serveChunks]
  | succ q ih =>
    intro size pos
    by_cases hl : min 1024 (size - pos) < 1024 <;>
      simp only [serveChunks, if_pos, if_neg, hl, ite_true, ite_false]
    · simp
    · simpa using ih size (pos + 1024)

theorem serveSlot_count_ne (i k : Nat) (s : Slot) (p : Ev → Bool)
    (hp : ∀ e, p e = true → e.idx = k) (hki : k ≠ i) :
    (serveSlot i s).2.1.countP p = 0 := by
  rw [List.countP_eq_zero]
  intro e he hpe
  exact hki ((hp e hpe) ▸ serveSlot_idx i s e he)

theorem serveSlot_inv (i : Nat) (s : Slot) (h : s.done = true → s.file = none) :
    (serveSlot i s).1.done = true → (serveSlot i s).1.file = none := by
  by_cases hs : s.prio = 0 ∨ s.done = true
  · rw [serveSlot_skip i s hs]
    exact h
  · rw [serveSlot_eq i s hs]
    dsimp only
    push_neg at hs
    split <;> simp [hs.2]

theorem serveSlot_posLe (i : Nat) (s : Slot) (h : s.file.getD 0 ≤ s.size) :
    (serveSlot i s).1.file.getD 0 ≤ (serveSlot i s).1.size := by
  by_cases hs : s.prio = 0 ∨ s.done = true
  · rw [serveSlot_skip i s hs]
    exact h
  · rw [serveSlot_eq i s hs]
    dsimp only
    have := (serveChunks_spec s.prio s.size (s.file.getD 0) h).1
    split <;> simpa using this

theorem serveSlot_countChunk (i : Nat) (s : Slot) :
    (serveSlot i s).2.1.countP Ev.isChunk =
      if ¬(s.prio = 0 ∨ s.done = true) then
        (serveChunks s.size (s.file.getD 0) s.prio).2.1.length
      else 0 := by
  by_cases hs : s.prio = 0 ∨ s.done = true
  · rw [serveSlot_skip i s hs, if_neg (not_not_intro hs)]
    rfl
  · rw [serveSlot_eq i s hs, if_pos hs]
    dsimp only
    have hmap : ((serveChunks s.size (s.file.getD 0) s.prio).2.1.map
        (Ev.chunk i)).countP Ev.isChunk =
        (serveChunks s.size (s.file.getD 0) s.prio).2.1.length := by
      rw [List.countP_map]
      simp [Function.comp, Ev.isChunk]
    split <;> simp only [List.countP_append, hmap] <;>
      split <;> simp [Ev.isChunk, List.countP_cons, List.countP_nil]

theorem phase_le_two (s : Slot) : phase s ≤ 2 := by
  unfold phase
  split
  · omega
  · split <;> omega

theorem phase_not_done (s : Slot) (h : s.done = false) : phase s ≤ 1 := by
  unfold phase
  rw [h]
  simp only [Bool.false_eq_true, if_false]
  split <;> omega

theorem serveSlot_active (i : Nat) (s : Slot) :
    (if activeB s then 1 else 0) =
      (if activeB (serveSlot i s).1 then 1 else 0) + (serveSlot i s).2.2 := by
  by_cases hs : s.prio = 0 ∨ s.done = true
  · rw [serveSlot_skip i s hs]
    simp
  · rw [serveSlot_eq i s hs]
    push_neg at hs
    have hdf : s.done = false := by
      cases hd : s.done
      · rfl
      · exact absurd hd hs.2
    dsimp only
    cases hfin : (serveChunks s.size (s.file.getD 0) s.prio).2.2 <;>
      simp [hfin, activeB, hs.1, hdf]

theorem serveSlot_phase_mono (i : Nat) (s : Slot) :
    phase s ≤ phase (serveSlot i s).1 := by
  by_cases hs : s.prio = 0 ∨ s.done = true
  · rw [serveSlot_skip i s hs]
  · rw [serveSlot_eq i s hs]
    push_neg at hs
    have hdf : s.done = false := by
      cases hd : s.done
      · rfl
      · exact absurd hd hs.2
    dsimp only
    cases hfin : (serveChunks s.size (s.file.getD 0) s.prio).2.2 <;>
      simp only [hfin, if_true, if_false, Bool.false_eq_true, Bool.true_eq_false,
        ite_true, ite_false]
    · exact le_trans (phase_not_done s hdf) (by simp [phase, hdf])
    · exact le_trans (phase_le_two s) (by simp [phase])

theorem serveSlot_chunksLeft (i : Nat) (s : Slot)
    (h : s.file.getD 0 ≤ s.size) :
    chunksLeft (serveSlot i s).1 + (serveSlot i s).2.1.countP Ev.isChunk =
      chunksLeft s := by
  by_cases hs : s.prio = 0 ∨ s.done = true
  · rw [serveSlot_skip i s hs]
    simp
  · have hsp := serveChunks_spec s.prio s.size (s.file.getD 0) h
    rw [serveSlot_countChunk i s, if_pos hs]
    push_neg at hs
    have hdf : s.done = false := by
      cases hd : s.done
      · rfl
      · exact absurd hd hs.2
    have hcls : chunksLeft s = (s.size - s.file.getD 0) / 1024 + 1 := by
      rw [chunksLeft, if_pos ⟨hs.1, hdf⟩]
    rw [serveSlot_eq i s (by push_neg; exact hs)]
    dsimp only
    cases hfin : (serveChunks s.size (s.file.getD 0) s.prio).2.2 <;>
      simp only [hfin, if_true, if_false, Bool.false_eq_true, ite_true, ite_false]
    · have heq := hsp.2.2.2.2 hfin
      rw [chunksLeft, if_pos ⟨by simpa using hs.1, by simpa using hdf⟩]
      simp only [Option.getD_some]
      omega
    · have heq := hsp.2.2.2.1 hfin
      rw [chunksLeft, if_neg (by simp)]
      omega

theorem serveSlot_chunk_pos (i : Nat) (s : Slot) (ha : activeB s = true)
    (h : s.file.getD 0 ≤ s.size) :
    1 ≤ (serveSlot i s).2.1.countP Ev.isChunk := by
  have hs : ¬(s.prio = 0 ∨ s.done = true) := by
    simp only [activeB, Bool.and_eq_true, Bool.not_eq_true', beq_eq_false_iff_ne,
      ne_eq] at ha
    push_neg
    exact ⟨ha.1, by simp [ha.2]⟩
  rw [serveSlot_countChunk i s, if_pos hs]
  push_neg at hs
  exact (serveChunks_spec s.prio s.size (s.file.getD 0) h).2.2.1
    (Nat.one_le_iff_ne_zero.mpr hs.1)

theorem serveSlot_done_iff (i : Nat) (s : Slot) :
    ((serveSlot i s).1.done = true ∧ s.done = false) ↔
      ∃ l, Ev.chunk i l ∈ (serveSlot i s).2.1 ∧ l < 1024 := by
  by_cases hs : s.prio = 0 ∨ s.done = true
  · rw [serveSlot_skip i s hs]
    simp only [List.not_mem_nil, false_and, exists_false, iff_false, not_and]
    intro hd
    cases hd' : s.done
    · exact absurd hd' (by simp [hd])
    · simp [hd']
  · rw [serveSlot_eq i s hs]
    push_neg at hs
    have hdf : s.done = false := by
      cases hd : s.done
      · rfl
      · exact absurd hd hs.2
    dsimp only
    have hmem : ∀ l, (Ev.chunk i l ∈
        (if s.file = none then [Ev.fopen i] else []) ++
          (serveChunks s.size (s.file.getD 0) s.prio).2.1.map (Ev.chunk i) ++
          (if (serveChunks s.size (s.file.getD 0) s.prio).2.2 then [Ev.fclose i]
           else [])) ↔ l ∈ (serveChunks s.size (s.file.getD 0) s.prio).2.1 := by
      intro l
      simp only [List.mem_append, List.mem_map]
      constructor
      · rintro ((hA | ⟨l', hl', he⟩) | hB)
        · split at hA <;> simp_all
        · rw [Ev.chunk.injEq] at he
          rw [← he.2]
          exact hl'
        · split at hB <;> simp_all
      · intro hl
        exact Or.inl (Or.inr ⟨l, hl, rfl⟩)
    cases hfin : (serveChunks s.size (s.file.getD 0) s.prio).2.2 <;>
      simp only [hfin, Bool.false_eq_true, eq_self_iff_true, if_true, if_false,
        ite_true, ite_false] at hmem ⊢
    · constructor
      · rintro ⟨hd, -⟩
        exact absurd hd (by simp [hdf])
      · rintro ⟨l, hl, hlt⟩
        rw [hmem l] at hl
        have hfin2 : (serveChunks s.size (s.file.getD 0) s.prio).2.2 = true :=
          (serveChunks_fin_iff s.prio s.size (s.file.getD 0)).mpr ⟨l, hl, hlt⟩
        rw [hfin2] at hfin
        cases hfin
    · constructor
      · intro _
        obtain ⟨l, hl, hlt⟩ :=
          (serveChunks_fin_iff s.prio s.size (s.file.getD 0)).mp hfin
        exact ⟨l, (hmem l).mpr hl, hlt⟩
      · intro _
        simp [hdf]

theorem serveSlot_quantum (i j : Nat) (s : Slot) :
    (serveSlot i s).2.1.countP (Ev.isChunkAt j) ≤ s.prio := by
  by_cases hij : j = i
  · subst hij
    have hcong : (serveSlot j s).2.1.countP (Ev.isChunkAt j) =
        (serveSlot j s).2.1.countP Ev.isChunk := by
      refine List.countP_congr ?_
      intro e he
      have hidx := serveSlot_idx j s e he
      cases e with
      | chunk k l =>
        simp [Ev.isChunkAt, Ev.isChunk, show k = j from hidx]
      | fopen k => rfl
      | fclose k => rfl
    rw [hcong, serveSlot_countChunk j s]
    split
    · exact serveChunks_len_le s.prio s.size (s.file.getD 0)
    · exact Nat.zero_le _
  · rw [serveSlot_count_ne i j s (Ev.isChunkAt j) ?_ hij]
    · exact Nat.zero_le _
    · intro e he
      cases e with
      | chunk k l => simpa [Ev.isChunkAt, Ev.idx] using he
      | fopen k => simp [Ev.isChunkAt] at he
      | fclose k => simp [Ev.isChunkAt] at he

theorem countP_ite_nil (p : Ev → Bool) (c : Prop) [Decidable c] (l : List Ev) :
    (if c then l else []).countP p = if c then l.countP p else 0 := by
  split <;> simp

theorem serveSlot_open_count (i : Nat) (s : Slot) :
    (serveSlot i s).2.1.countP (Ev.isOpenAt i) =
      if phase s = 0 ∧ 1 ≤ phase (serveSlot i s).1 then 1 else 0 := by
  by_cases hs : s.prio = 0 ∨ s.done = true
  · rw [serveSlot_skip i s hs]
    simp only [List.countP_nil]
    split
    · rename_i hc
      omega
    · rfl
  · have hs' := hs
    push_neg at hs'
    have hdf : s.done = false := by
      cases hd : s.done
      · rfl
      · exact absurd hd hs'.2
    have hmap : ∀ (pos : Nat), ((serveChunks s.size pos s.prio).2.1.map
        (Ev.chunk i)).countP (Ev.isOpenAt i) = 0 := by
      intro pos
      rw [List.countP_eq_zero]
      rintro e he
      obtain ⟨l, -, he⟩ := List.mem_map.mp he
      rw [← he]
      simp [Ev.isOpenAt]
    have hclose : ∀ (c : Prop) (hc : Decidable c),
        (if c then [Ev.fclose i] else []).countP (Ev.isOpenAt i) = 0 := by
      intro c hc
      split <;> simp [Ev.isOpenAt, List.countP_cons]
    cases hfo : s.file with
    | none =>
      have hph : phase s = 0 := by simp [phase, hdf, hfo]
      have hge : 1 ≤ phase (serveSlot i s).1 := by
        rw [serveSlot_eq i s hs]
        dsimp only
        split <;> simp [phase, hdf]
      rw [if_pos (And.intro hph hge), serveSlot_eq i s hs]
      dsimp only
      rw [hfo]
      simp only [eq_self_iff_true, if_true, ite_true, List.countP_append,
        hmap, hclose]
      simp [Ev.isOpenAt, List.countP_cons]
    | some p =>
      have hph : phase s = 1 := by simp [phase, hdf, hfo]
      have hneg : ¬(phase s = 0 ∧ 1 ≤ phase (serveSlot i s).1) := by
        rintro ⟨h0, -⟩
        omega
      rw [if_neg hneg, serveSlot_eq i s hs]
      dsimp only
      rw [hfo]
      simp only [List.countP_append, hmap, hclose]
      simp

theorem serveSlot_close_count (i : Nat) (s : Slot) :
    (serveSlot i s).2.1.countP (Ev.isCloseAt i) =
      if phase s ≤ 1 ∧ phase (serveSlot i s).1 = 2 then 1 else 0 := by
  by_cases hs : s.prio = 0 ∨ s.done = true
  · rw [serveSlot_skip i s hs]
    simp only [List.countP_nil]
    split
    · rename_i hc
      omega
    · rfl
  · have hs' := hs
    push_neg at hs'
    have hdf : s.done = false := by
      cases hd : s.done
      · rfl
      · exact absurd hd hs'.2
    have hph : phase s ≤ 1 := phase_not_done s hdf
    have hmap : ∀ (pos : Nat), ((serveChunks s.size pos s.prio).2.1.map
        (Ev.chunk i)).countP (Ev.isCloseAt i) = 0 := by
      intro pos
      rw [List.countP_eq_zero]
      rintro e he
      obtain ⟨l, -, he⟩ := List.mem_map.mp he
      rw [← he]
      simp [Ev.isCloseAt]
    have hopen : ∀ (c : Prop) (hc : Decidable c),
        (if c then [Ev.fopen i] else []).countP (Ev.isCloseAt i) = 0 := by
      intro c hc
      split <;> simp [Ev.isCloseAt, List.countP_cons]
    cases hfin : (serveChunks s.size (s.file.getD 0) s.prio).2.2 with
    | false =>
      have hne : phase (serveSlot i s).1 ≠ 2 := by
        rw [serveSlot_eq i s hs]
        dsimp only
        rw [hfin]
        simp [phase, hdf]
      rw [if_neg (fun hc => hne hc.2), serveSlot_eq i s hs]
      dsimp only
      rw [hfin]
      simp only [Bool.false_eq_true, if_false, ite_false, List.countP_append,
        hmap, hopen, List.countP_nil]
    | true =>
      have heq : phase (serveSlot i s).1 = 2 := by
        rw [serveSlot_eq i s hs]
        dsimp only
        rw [hfin]
        simp [phase]
      rw [if_pos (And.intro hph heq), serveSlot_eq i s hs]
      dsimp only
      rw [hfin]
      simp only [eq_self_iff_true, if_true, ite_true, List.countP_append,
        hmap, hopen, List.countP_nil]
      simp [Ev.isCloseAt, List.countP_cons]

theorem servePass_length (i : Nat) (slots : List Slot) :
    (servePass i slots).1.length = slots.length := by
  induction slots generalizing i with
  | nil => rfl
  | cons s rest ih => simp [servePass, ih]

theorem servePass_getElem? (i j : Nat) (slots : List Slot) :
    (servePass i slots).1[j]? =
      (slots[j]?).map (fun s => (serveSlot (i + j) s).1) := by
  induction slots generalizing i j with
  | nil => simp [servePass]
  | cons s rest ih =>
    cases j with
    | zero => simp [servePass]
    | succ j =>
      simp only [servePass, List.getElem?_cons_succ, ih (i + 1) j]
      rw [show i + 1 + j = i + (j + 1) by omega]

theorem servePass_idx_range (i : Nat) (slots : List Slot) :
    ∀ e ∈ (servePass i slots).2.1, i ≤ e.idx ∧ e.idx < i + slots.length := by
  induction slots generalizing i with
  | nil => intro e he; simp [servePass] at he
  | cons s rest ih =>
    intro e he
    simp only [servePass, List.mem_append] at he
    rcases he with he | he
    · have := serveSlot_idx i s e he
      simp [this]
    · have := ih (i + 1) e he
      constructor
      · omega
      · simp only [List.length_cons]
        omega

theorem servePass_sorted (i : Nat) (slots : List Slot) :
    List.Pairwise (· ≤ ·) ((servePass i slots).2.1.map Ev.idx) := by
  induction slots generalizing i with
  | nil => simp [servePass]
  | cons s rest ih =>
    simp only [servePass, List.map_append, List.pairwise_append]
    refine ⟨?_, ih (i + 1), ?_⟩
    · have hgen : ∀ (l : List Ev), (∀ e ∈ l, e.idx = i) →
          List.Pairwise (· ≤ ·) (l.map Ev.idx) := by
        intro l
        induction l with
        | nil => intro _; simp
        | cons e es ihe =>
          intro hall
          simp only [List.map_cons, List.pairwise_cons]
          refine ⟨?_, ihe (fun x hx => hall x (by simp [hx]))⟩
          intro b hb
          obtain ⟨eb, heb, hbeq⟩ := List.mem_map.mp hb
          rw [hall e (by simp), ← hbeq, hall eb (by simp [heb])]
      exact hgen _ (serveSlot_idx i s)
    · intro a ha b hb
      obtain ⟨ea, hea, haidx⟩ := List.mem_map.mp ha
      obtain ⟨eb, heb, hbidx⟩ := List.mem_map.mp hb
      rw [← haidx, ← hbidx, serveSlot_idx i s ea hea]
      have := servePass_idx_range (i + 1) rest eb heb
      omega

theorem servePass_countP (i : Nat) (slots : List Slot) (p : Ev → Bool)
    (k : Nat) (hp : ∀ e, p e = true → e.idx = k) :
    ∀ j s, slots[j]? = some s → k = i + j →
      (servePass i slots).2.1.countP p = (serveSlot k s).2.1.countP p := by
  induction slots generalizing i with
  | nil => intro j s hj; simp at hj
  | cons s0 rest ih =>
    intro j s hj hk
    simp only [servePass, List.countP_append]
    cases j with
    | zero =>
      simp only [List.getElem?_cons_zero, Option.some.injEq] at hj
      subst hj
      have hrest : (servePass (i + 1) rest).2.1.countP p = 0 := by
        rw [List.countP_eq_zero]
        intro e he hpe
        have := servePass_idx_range (i + 1) rest e he
        have := hp e hpe
        omega
      rw [hrest]
      subst hk
      simp only [Nat.add_zero]
    | succ j =>
      simp only [List.getElem?_cons_succ] at hj
      have h0 : (serveSlot i s0).2.1.countP p = 0 := by
        rw [List.countP_eq_zero]
        intro e he hpe
        have := serveSlot_idx i s0 e he
        have := hp e hpe
        omega
      rw [h0, ih (i + 1) j s hj (by omega)]
      omega

theorem servePass_countP_out (i : Nat) (slots : List Slot) (p : Ev → Bool)
    (k : Nat) (hp : ∀ e, p e = true → e.idx = k)
    (hout : k < i ∨ i + slots.length ≤ k) :
    (servePass i slots).2.1.countP p = 0 := by
  rw [List.countP_eq_zero]
  intro e he hpe
  have := servePass_idx_range i slots e he
  have := hp e hpe
  omega

theorem servePass_mem (i : Nat) (slots : List Slot) (e : Ev) :
    ∀ j s, slots[j]? = some s → e.idx = i + j →
      (e ∈ (servePass i slots).2.1 ↔ e ∈ (serveSlot (i + j) s).2.1) := by
  induction slots generalizing i with
  | nil => intro j s hj; simp at hj
  | cons s0 rest ih =>
    intro j s hj hk
    simp only [servePass, List.mem_append]
    cases j with
    | zero =>
      simp only [List.getElem?_cons_zero, Option.some.injEq] at hj
      subst hj
      constructor
      · rintro (h | h)
        · simpa using h
        · have := servePass_idx_range (i + 1) rest e h
          omega
      · intro h
        exact Or.inl (by simpa using h)
    | succ j =>
      simp only [List.getElem?_cons_succ] at hj
      have hne : e ∉ (serveSlot i s0).2.1 := by
        intro hmem
        have := serveSlot_idx i s0 e hmem
        omega
      rw [show i + (j + 1) = (i + 1) + j by omega] at hk ⊢
      rw [← ih (i + 1) j s hj hk]
      constructor
      · rintro (h | h)
        · exact absurd h hne
        · exact h
      · intro h
        exact Or.inr h

theorem servePass_eligible (i : Nat) (slots : List Slot) :
    ∀ e ∈ (servePass i slots).2.1, ∃ j s, e.idx = i + j ∧
      slots[j]? = some s ∧ s.prio ≠ 0 ∧ s.done = false := by
  induction slots generalizing i with
  | nil => intro e he; simp [servePass] at he
  | cons s0 rest ih =>
    intro e he
    simp only [servePass, List.mem_append] at he
    rcases he with he | he
    · have hidx := serveSlot_idx i s0 e he
      by_cases hs : s0.prio = 0 ∨ s0.done = true
      · rw [serveSlot_skip i s0 hs] at he
        simp at he
      · push_neg at hs
        refine ⟨0, s0, by omega, by simp, hs.1, ?_⟩
        cases hd : s0.done
        · rfl
        · exact absurd hd hs.2
    · obtain ⟨j, s, hidx, hj, hprio, hdone⟩ := ih (i + 1) e he
      exact ⟨j + 1, s, by omega, by simpa using hj, hprio, hdone⟩

theorem servePass_active (i : Nat) (slots : List Slot) :
    activeCount slots =
      activeCount (servePass i slots).1 + (servePass i slots).2.2 := by
  induction slots generalizing i with
  | nil => rfl
  | cons s rest ih =>
    simp only [servePass, activeCount, List.countP_cons]
    have h1 := serveSlot_active i s
    have h2 := ih (i + 1)
    simp only [activeCount] at h2
    omega

theorem servePass_posLe (i : Nat) (slots : List Slot) (h : posLe slots) :
    posLe (servePass i slots).1 := by
  induction slots generalizing i with
  | nil => intro s hs; simp [servePass] at hs
  | cons s0 rest ih =>
    intro s hs
    simp only [servePass, List.mem_cons] at hs
    rcases hs with hs | hs
    · rw [hs]
      exact serveSlot_posLe i s0 (h s0 (by simp))
    · exact ih (i + 1) (fun s' hs' => h s' (by simp [hs'])) s hs

theorem servePass_inv (i : Nat) (slots : List Slot)
    (h : ∀ s ∈ slots, s.done = true → s.file = none) :
    ∀ s ∈ (servePass i slots).1, s.done = true → s.file = none := by
  induction slots generalizing i with
  | nil => intro s hs; simp [servePass] at hs
  | cons s0 rest ih =>
    intro s hs
    simp only [servePass, List.mem_cons] at hs
    rcases hs with hs | hs
    · rw [hs]
      exact serveSlot_inv i s0 (h s0 (by simp))
    · exact ih (i + 1) (fun s' hs' => h s' (by simp [hs'])) s hs

theorem servePass_measure (i : Nat) (slots : List Slot) (h : posLe slots) :
    passMeasure (servePass i slots).1 +
      (servePass i slots).2.1.countP Ev.isChunk = passMeasure slots := by
  induction slots generalizing i with
  | nil => rfl
  | cons s0 rest ih =>
    simp only [servePass, passMeasure, List.map_cons, List.sum_cons,
      List.countP_append]
    have h1 := serveSlot_chunksLeft i s0 (h s0 (by simp))
    have h2 := ih (i + 1) (fun s' hs' => h s' (by simp [hs']))
    simp only [passMeasure] at h2
    omega

theorem servePass_chunk_pos (i : Nat) (slots : List Slot) (h : posLe slots)
    (ha : 1 ≤ activeCount slots) :
    1 ≤ (servePass i slots).2.1.countP Ev.isChunk := by
  induction slots generalizing i with
  | nil => simp [activeCount] at ha
  | cons s0 rest ih =>
    simp only [servePass, List.countP_append]
    by_cases hact : activeB s0 = true
    · have := serveSlot_chunk_pos i s0 hact (h s0 (by simp))
      omega
    · have : activeCount (s0 :: rest) = activeCount rest := by
        simp only [activeCount, List.countP_cons, hact]
        simp
      rw [this] at ha
      have := ih (i + 1) (fun s' hs' => h s' (by simp [hs'])) ha
      omega

theorem roundLoop_zero_td (f : Nat) (slots : List Slot) :
    roundLoop f slots 0 = (slots, 0, []) := by
  cases f <;> simp [roundLoop]

theorem activeCount_le_measure (slots : List Slot) :
    activeCount slots ≤ passMeasure slots := by
  induction slots with
  | nil => simp [activeCount, passMeasure]
  | cons s rest ih =>
    simp only [activeCount, passMeasure, List.countP_cons, List.map_cons,
      List.sum_cons] at ih ⊢
    have : (if activeB s then 1 else 0) ≤ chunksLeft s := by
      by_cases ha : activeB s = true
      · simp only [ha, if_true, ite_true]
        have : ¬(s.prio = 0 ∨ s.done = true) := by
          simp only [activeB, Bool.and_eq_true, Bool.not_eq_true',
            beq_eq_false_iff_ne, ne_eq] at ha
          push_neg
          exact ⟨ha.1, by simp [ha.2]⟩
        push_neg at this
        rw [chunksLeft, if_pos ⟨this.1, by
          cases hd : s.done
          · rfl
          · exact absurd hd this.2⟩]
        omega
      · simp [ha]
    omega

theorem roundLoop_term :
    ∀ (f : Nat) (slots : List Slot) (td : Nat), td = activeCount slots →
      posLe slots → passMeasure slots ≤ f →
      (roundLoop f slots td).2.1 = 0 ∧
      activeCount (roundLoop f slots td).1 = 0 ∧
      posLe (roundLoop f slots td).1 ∧
      (roundLoop f slots td).2.1 = activeCount (roundLoop f slots td).1 := by
  intro f
  induction f with
  | zero =>
    intro slots td htd hpos hm
    have hac : activeCount slots = 0 := by
      have := activeCount_le_measure slots
      omega
    have htd0 : td = 0 := by omega
    subst htd0
    exact ⟨rfl, hac, hpos, hac.symm⟩
  | succ f ih =>
    intro slots td htd hpos hm
    by_cases h0 : td = 0
    · subst h0
      rw [roundLoop_zero_td]
      have hac : activeCount slots = 0 := htd.symm
      exact ⟨rfl, hac, hpos, hac.symm⟩
    · simp only [roundLoop, if_neg h0]
      have hact := servePass_active 0 slots
      have hchunks := servePass_chunk_pos 0 slots hpos (by omega)
      have hmeas := servePass_measure 0 slots hpos
      have hih := ih (servePass 0 slots).1 (td - (servePass 0 slots).2.2)
        (by omega) (servePass_posLe 0 slots hpos) (by omega)
      exact hih

/-- C4: within one round, each pass visits catalog indices in ascending
order, visits only indices with nonzero priority that are not yet done,
performs at most `priority` chunk exchanges per visited index, marks an
index done exactly when a terminal chunk (< 1024 bytes) is observed at it,
decrements the activated counter by the number of indices newly done in
the pass, and passes repeat until the counter reaches zero. -/
theorem scheduler_round_spec (slots : List Slot) (td : Nat)
    (hpos : posLe slots) (htd : td = activeCount slots) :
    List.Pairwise (· ≤ ·) (((servePass 0 slots).2.1).map Ev.idx) ∧
    (∀ e ∈ (servePass 0 slots).2.1, ∃ s, slots[e.idx]? = some s ∧
       s.prio ≠ 0 ∧ s.done = false) ∧
    (∀ j s, slots[j]? = some s →
       (servePass 0 slots).2.1.countP (Ev.isChunkAt j) ≤ s.prio) ∧
    (∀ j s s', slots[j]? = some s → (servePass 0 slots).1[j]? = some s' →
       ((s'.done = true ∧ s.done = false) ↔
         ∃ l, Ev.chunk j l ∈ (servePass 0 slots).2.1 ∧ l < 1024)) ∧
    activeCount slots =
      activeCount (servePass 0 slots).1 + (servePass 0 slots).2.2 ∧
    (roundLoop (passMeasure slots) slots td).2.1 = 0 := by
  refine ⟨servePass_sorted 0 slots, ?_, ?_, ?_, servePass_active 0 slots, ?_⟩
  · intro e he
    obtain ⟨j, s, hidx, hj, hprio, hdone⟩ := servePass_eligible 0 slots e he
    rw [Nat.zero_add] at hidx
    exact ⟨s, hidx ▸ hj, hprio, hdone⟩
  · intro j s hj
    have hp : ∀ e, Ev.isChunkAt j e = true → e.idx = j := by
      intro e hpe
      cases e with
      | chunk k l => simpa [Ev.isChunkAt, Ev.idx] using hpe
      | fopen k => simp [Ev.isChunkAt] at hpe
      | fclose k => simp [Ev.isChunkAt] at hpe
    rw [servePass_countP 0 slots (Ev.isChunkAt j) j hp j s hj (by omega)]
    exact serveSlot_quantum j j s
  · intro j s s' hj hj'
    rw [servePass_getElem? 0 j slots, hj] at hj'
    simp only [Option.map_some', Option.some.injEq] at hj'
    have hmem : ∀ l, (Ev.chunk j l ∈ (servePass 0 slots).2.1 ↔
        Ev.chunk j l ∈ (serveSlot (0 + j) s).2.1) := by
      intro l
      exact servePass_mem 0 slots (Ev.chunk j l) j s hj (by simp [Ev.idx])
    rw [← hj']
    simp only [Nat.zero_add] at hmem ⊢
    constructor
    · intro hdone
      obtain ⟨l, hl, hlt⟩ := (serveSlot_done_iff j s).mp hdone
      exact ⟨l, (hmem l).mpr hl, hlt⟩
    · rintro ⟨l, hl, hlt⟩
      exact (serveSlot_done_iff j s).mpr ⟨l, (hmem l).mp hl, hlt⟩
  · exact (roundLoop_term (passMeasure slots) slots td htd hpos
      (Nat.le_refl _)).1

/-- Witness for C4 at one single-slot catalog: a 0-byte file with
priority 1 and activated counter 1. -/
theorem scheduler_round_spec_witness :
    posLe [⟨1, 0, false, none⟩] ∧ (1 : Nat) = activeCount [⟨1, 0, false, none⟩] ∧
    (List.Pairwise (· ≤ ·) (((servePass 0 [⟨1, 0, false, none⟩]).2.1).map Ev.idx) ∧
    (∀ e ∈ (servePass 0 [⟨1, 0, false, none⟩]).2.1, ∃ s,
       ([⟨1, 0, false, none⟩] : List Slot)[e.idx]? = some s ∧
       s.prio ≠ 0 ∧ s.done = false) ∧
    (∀ j s, ([⟨1, 0, false, none⟩] : List Slot)[j]? = some s →
       (servePass 0 [⟨1, 0, false, none⟩]).2.1.countP (Ev.isChunkAt j) ≤ s.prio) ∧
    (∀ j s s', ([⟨1, 0, false, none⟩] : List Slot)[j]? = some s →
       (servePass 0 [⟨1, 0, false, none⟩]).1[j]? = some s' →
       ((s'.done = true ∧ s.done = false) ↔
         ∃ l, Ev.chunk j l ∈ (servePass 0 [⟨1, 0, false, none⟩]).2.1 ∧ l < 1024)) ∧
    activeCount [⟨1, 0, false, none⟩] =
      activeCount (servePass 0 [⟨1, 0, false, none⟩]).1 +
        (servePass 0 [⟨1, 0, false, none⟩]).2.2 ∧
    (roundLoop (passMeasure [⟨1, 0, false, none⟩]) [⟨1, 0, false, none⟩] 1).2.1 = 0) :=
  ⟨by intro s hs; rcases List.mem_singleton.mp hs with rfl; simp, by decide,
    scheduler_round_spec [⟨1, 0, false, none⟩] 1
      (by intro s hs; rcases List.mem_singleton.mp hs with rfl; simp)
      (by decide)⟩

/-- C8: a zero-byte source file is transferred as exactly one chunk: on its
first service the sender opens the file, `Chunk::read` returns length 0,
the chunk is terminal (`0 < 1024`), the slot is marked done, and the
encoded packet for that chunk carries the end flag (header bit 15). -/
theorem zero_byte_file_one_chunk (i p : Nat) (hp : 1 ≤ p) :
    serveSlot i ⟨p, 0, false, none⟩ =
      (⟨p, 0, true, none⟩, [Ev.fopen i, Ev.chunk i 0, Ev.fclose i], 1) ∧
    ((0 : Nat) < 1024) ∧
    fromBe ((chunkSend ⟨0, List.replicate 1024 0⟩).take 2) >>> 15 = 1 := by
  refine ⟨?_, by norm_num, by decide⟩
  obtain ⟨q, rfl⟩ : ∃ q, p = q + 1 := ⟨p - 1, by omega⟩
  have hs : ¬((⟨q + 1, 0, false, none⟩ : Slot).prio = 0 ∨
      (⟨q + 1, 0, false, none⟩ : Slot).done = true) := by
    push_neg
    exact ⟨by simp, by simp⟩
  rw [serveSlot_eq i _ hs]
  simp [serveChunks]

/-- Witness for C8 at index 0 with priority 1. -/
theorem zero_byte_file_one_chunk_witness :
    (1 : Nat) ≤ 1 ∧
    (serveSlot 0 ⟨1, 0, false, none⟩ =
        (⟨1, 0, true, none⟩, [Ev.fopen 0, Ev.chunk 0 0, Ev.fclose 0], 1) ∧
      ((0 : Nat) < 1024) ∧
      fromBe ((chunkSend ⟨0, List.replicate 1024 0⟩).take 2) >>> 15 = 1) :=
  ⟨Nat.le_refl 1, zero_byte_file_one_chunk 0 1 (Nat.le_refl 1)⟩

theorem mergeSlots_length (slots : List Slot) (prios : List Nat) :
    (mergeSlots slots prios).1.length = slots.length := by
  induction slots generalizing prios with
  | nil => cases prios <;> simp [mergeSlots]
  | cons s rest ih =>
    cases prios with
    | nil => simp [mergeSlots]
    | cons o os =>
      by_cases hp : s.prio = 0 <;> by_cases ho : o ≠ 0 <;>
        simp [mergeSlots, hp, ho, ih]

theorem mergeSlots_getElem? (slots : List Slot) (prios : List Nat) (k : Nat) :
    ((mergeSlots slots prios).1[k]?).map (fun s => (s.done, s.file, s.size)) =
      (slots[k]?).map (fun s => (s.done, s.file, s.size)) := by
  induction slots generalizing prios k with
  | nil => cases prios <;> simp [mergeSlots]
  | cons s rest ih =>
    cases prios with
    | nil => simp [mergeSlots]
    | cons o os =>
      cases k with
      | zero =>
        by_cases hp : s.prio = 0 <;> by_cases ho : o ≠ 0 <;>
          simp [mergeSlots, hp, ho]
      | succ k =>
        by_cases hp : s.prio = 0 <;> by_cases ho : o ≠ 0 <;>
          simp [mergeSlots, hp, ho, ih]

theorem mergeSlots_mem (slots : List Slot) (prios : List Nat) :
    ∀ s' ∈ (mergeSlots slots prios).1, ∃ s ∈ slots,
      s'.done = s.done ∧ s'.file = s.file ∧ s'.size = s.size := by
  induction slots generalizing prios with
  | nil =>
    cases prios <;> intro s' hs' <;> simp [mergeSlots] at hs'
  | cons s rest ih =>
    cases prios with
    | nil =>
      intro s' hs'
      simp only [mergeSlots, List.mem_cons] at hs'
      rcases hs' with hs' | hs'
      · exact ⟨s, by simp, by simp [hs']⟩
      · exact ⟨s', by simp [hs'], rfl, rfl, rfl⟩
    | cons o os =>
      intro s' hs'
      have hrec : s' ∈ (mergeSlots rest os).1 → ∃ t ∈ s :: rest,
          s'.done = t.done ∧ s'.file = t.file ∧ s'.size = t.size := by
        intro ht'
        obtain ⟨t, ht, he⟩ := ih os s' ht'
        exact ⟨t, by simp [ht], he⟩
      simp only [mergeSlots] at hs'
      by_cases hp : s.prio = 0
      · rw [if_pos hp] at hs'
        by_cases ho : o ≠ 0
        · rw [if_pos ho] at hs'
          rcases List.mem_cons.mp hs' with hs' | hs'
          · exact ⟨s, by simp, by simp [hs']⟩
          · exact hrec hs'
        · rw [if_neg ho] at hs'
          rcases List.mem_cons.mp hs' with hs' | hs'
          · exact ⟨s, by simp, by simp [hs']⟩
          · exact hrec hs'
      · rw [if_neg hp] at hs'
        rcases List.mem_cons.mp hs' with hs' | hs'
        · exact ⟨s, by simp, by simp [hs']⟩
        · exact hrec hs'

theorem roundLoop_length (f : Nat) (slots : List Slot) (td : Nat) :
    (roundLoop f slots td).1.length = slots.length := by
  induction f generalizing slots td with
  | zero => rfl
  | succ f ih =>
    by_cases h0 : td = 0
    · subst h0
      rw [roundLoop_zero_td]
    · simp only [roundLoop, if_neg h0]
      rw [ih, servePass_length]

theorem roundLoop_idx_range (f : Nat) (slots : List Slot) (td : Nat) :
    ∀ e ∈ (roundLoop f slots td).2.2, e.idx < slots.length := by
  induction f generalizing slots td with
  | zero => intro e he; simp [roundLoop] at he
  | succ f ih =>
    intro e he
    by_cases h0 : td = 0
    · subst h0
      rw [roundLoop_zero_td] at he
      simp at he
    · simp only [roundLoop, if_neg h0, List.mem_append] at he
      rcases he with he | he
      · have := servePass_idx_range 0 slots e he
        omega
      · have := ih (servePass 0 slots).1 (td - (servePass 0 slots).2.2) e he
        rw [servePass_length] at this
        exact this

theorem session_length (ins : List (List Nat)) (slots : List Slot) :
    (session ins slots).1.length = slots.length := by
  induction ins generalizing slots with
  | nil => rfl
  | cons prios rest ih =>
    simp only [session]
    rw [ih, roundLoop_length, mergeSlots_length]

theorem session_idx_range (ins : List (List Nat)) (slots : List Slot) :
    ∀ e ∈ (session ins slots).2, e.idx < slots.length := by
  induction ins generalizing slots with
  | nil => intro e he; simp [session] at he
  | cons prios rest ih =>
    intro e he
    simp only [session, List.mem_append] at he
    rcases he with he | he
    · have := roundLoop_idx_range _ _ _ e he
      rw [mergeSlots_length] at this
      exact this
    · have := ih _ e he
      rw [roundLoop_length, mergeSlots_length] at this
      exact this

theorem roundLoop_inv (f : Nat) (slots : List Slot) (td : Nat)
    (h : ∀ s ∈ slots, s.done = true → s.file = none) :
    ∀ s ∈ (roundLoop f slots td).1, s.done = true → s.file = none := by
  induction f generalizing slots td with
  | zero => exact h
  | succ f ih =>
    by_cases h0 : td = 0
    · subst h0
      rw [roundLoop_zero_td]
      exact h
    · simp only [roundLoop, if_neg h0]
      exact ih _ _ (servePass_inv 0 slots h)

theorem session_inv (ins : List (List Nat)) (slots : List Slot)
    (h : ∀ s ∈ slots, s.done = true → s.file = none) :
    ∀ s ∈ (session ins slots).1, s.done = true → s.file = none := by
  induction ins generalizing slots with
  | nil => exact h
  | cons prios rest ih =>
    simp only [session]
    refine ih _ (roundLoop_inv _ _ _ ?_)
    intro s' hs' hd
    obtain ⟨s, hsm, he1, he2, -⟩ := mergeSlots_mem slots prios s' hs'
    rw [he2]
    exact h s hsm (he1 ▸ hd)

theorem servePass_done_stable (i k : Nat) (slots : List Slot) (s : Slot)
    (hk : slots[k]? = some s) (hd : s.done = true) :
    (servePass i slots).1[k]? = some s ∧
    (servePass i slots).2.1.countP (fun e => e.idx == i + k) = 0 := by
  have hskip := serveSlot_skip (i + k) s (Or.inr hd)
  constructor
  · rw [servePass_getElem?, hk, Option.map_some', hskip]
  · have hp : ∀ (e : Ev), (e.idx == i + k) = true → e.idx = i + k := by
      intro e he
      simpa using he
    rw [servePass_countP i slots _ (i + k) hp k s hk rfl, hskip]
    rfl

theorem roundLoop_done_stable (f : Nat) (slots : List Slot) (td k : Nat)
    (s : Slot) (hk : slots[k]? = some s) (hd : s.done = true) :
    (roundLoop f slots td).1[k]? = some s ∧
    (roundLoop f slots td).2.2.countP (fun e => e.idx == k) = 0 := by
  induction f generalizing slots td with
  | zero => exact ⟨hk, rfl⟩
  | succ f ih =>
    by_cases h0 : td = 0
    · subst h0
      rw [roundLoop_zero_td]
      exact ⟨hk, rfl⟩
    · simp only [roundLoop, if_neg h0, List.countP_append]
      have hpass := servePass_done_stable 0 k slots s hk hd
      rw [Nat.zero_add] at hpass
      have hrec := ih (servePass 0 slots).1 (td - (servePass 0 slots).2.2)
        hpass.1
      exact ⟨hrec.1, by rw [hpass.2, hrec.2]⟩

theorem mergeSlots_done_stable (slots : List Slot) (prios : List Nat) (k : Nat)
    (s : Slot) (hk : slots[k]? = some s) :
    ∃ m, (mergeSlots slots prios).1[k]? = some m ∧ m.done = s.done ∧
      m.file = s.file ∧ m.size = s.size := by
  have := mergeSlots_getElem? slots prios k
  rw [hk, Option.map_some'] at this
  cases hm : (mergeSlots slots prios).1[k]? with
  | none => rw [hm] at this; exact absurd this (by simp)
  | some m =>
    rw [hm, Option.map_some', Option.some.injEq, Prod.mk.injEq,
      Prod.mk.injEq] at this
    exact ⟨m, rfl, this.1, this.2.1, this.2.2⟩

theorem session_done_stable :
    ∀ (ins : List (List Nat)) (slots : List Slot) (k : Nat) (s : Slot),
      slots[k]? = some s → s.done = true →
      (session ins slots).2.countP (fun e => e.idx == k) = 0 ∧
      ∃ s', (session ins slots).1[k]? = some s' ∧ s'.done = true ∧
        s'.file = s.file := by
  intro ins
  induction ins with
  | nil =>
    intro slots k s hk hd
    exact ⟨rfl, s, hk, hd, rfl⟩
  | cons prios rest ih =>
    intro slots k s hk hd
    simp only [session, List.countP_append]
    obtain ⟨m, hm, hmd, hmf, -⟩ := mergeSlots_done_stable slots prios k s hk
    have hround := roundLoop_done_stable (passMeasure (mergeSlots slots prios).1)
      (mergeSlots slots prios).1 (mergeSlots slots prios).2 k m hm (hmd ▸ hd)
    obtain ⟨hcnt, s', hs', hsd', hsf'⟩ := ih _ k m hround.1 (hmd ▸ hd)
    refine ⟨by rw [hround.2, hcnt], s', hs', hsd', by rw [hsf', hmf]⟩

theorem isOpenAt_idx : ∀ (k : Nat) (e : Ev), Ev.isOpenAt k e = true → e.idx = k := by
  intro k e he
  cases e with
  | fopen j => simpa [Ev.isOpenAt, Ev.idx] using he
  | chunk j l => simp [Ev.isOpenAt] at he
  | fclose j => simp [Ev.isOpenAt] at he

theorem isCloseAt_idx : ∀ (k : Nat) (e : Ev), Ev.isCloseAt k e = true → e.idx = k := by
  intro k e he
  cases e with
  | fclose j => simpa [Ev.isCloseAt, Ev.idx] using he
  | chunk j l => simp [Ev.isCloseAt] at he
  | fopen j => simp [Ev.isCloseAt] at he

theorem roundLoop_phase_counts :
    ∀ (f : Nat) (slots : List Slot) (td k : Nat) (s : Slot),
      slots[k]? = some s →
      ∃ s', (roundLoop f slots td).1[k]? = some s' ∧ phase s ≤ phase s' ∧
        (roundLoop f slots td).2.2.countP (Ev.isOpenAt k) +
            (if phase s' = 0 then 1 else 0) ≤
          (if phase s = 0 then 1 else 0) ∧
        (roundLoop f slots td).2.2.countP (Ev.isCloseAt k) =
          (if phase s ≤ 1 ∧ phase s' = 2 then 1 else 0) := by
  intro f
  induction f with
  | zero =>
    intro slots td k s hk
    refine ⟨s, hk, Nat.le_refl _, ?_, ?_⟩ <;>
      rw [show (roundLoop 0 slots td).2.2 = [] from rfl, List.countP_nil]
    · omega
    · split
      · rename_i hc
        omega
      · rfl
  | succ f ih =>
    intro slots td k s hk
    by_cases h0 : td = 0
    · subst h0
      rw [roundLoop_zero_td]
      refine ⟨s, hk, Nat.le_refl _, ?_, ?_⟩ <;> rw [List.countP_nil]
      · omega
      · split
        · rename_i hc
          omega
        · rfl
    · simp only [roundLoop, if_neg h0, List.countP_append]
      have hget : (servePass 0 slots).1[k]? = some (serveSlot k s).1 := by
        rw [servePass_getElem?, hk, Option.map_some', Nat.zero_add]
      have hO := servePass_countP 0 slots (Ev.isOpenAt k) k (isOpenAt_idx k)
        k s hk (by omega)
      have hC := servePass_countP 0 slots (Ev.isCloseAt k) k (isCloseAt_idx k)
        k s hk (by omega)
      rw [serveSlot_open_count] at hO
      rw [serveSlot_close_count] at hC
      have hmono := serveSlot_phase_mono k s
      obtain ⟨s', hs', hmono2, hOrest, hCrest⟩ :=
        ih (servePass 0 slots).1 (td - (servePass 0 slots).2.2) k
          (serveSlot k s).1 hget
      have h2s := phase_le_two s
      have h2m := phase_le_two (serveSlot k s).1
      have h2s' := phase_le_two s'
      refine ⟨s', hs', le_trans hmono hmono2, ?_, ?_⟩
      · rw [hO]
        split_ifs at hOrest ⊢ <;> omega
      · rw [hC]
        split_ifs at hCrest ⊢ <;> omega

theorem mergeSlots_phase (slots : List Slot) (prios : List Nat) (k : Nat)
    (s : Slot) (hk : slots[k]? = some s) :
    ∃ m, (mergeSlots slots prios).1[k]? = some m ∧ phase m = phase s := by
  obtain ⟨m, hm, hd, hf, -⟩ := mergeSlots_done_stable slots prios k s hk
  exact ⟨m, hm, by rw [phase, phase, hd, hf]⟩

theorem session_phase_counts :
    ∀ (ins : List (List Nat)) (slots : List Slot) (k : Nat) (s : Slot),
      slots[k]? = some s →
      ∃ s', (session ins slots).1[k]? = some s' ∧ phase s ≤ phase s' ∧
        (session ins slots).2.countP (Ev.isOpenAt k) +
            (if phase s' = 0 then 1 else 0) ≤
          (if phase s = 0 then 1 else 0) ∧
        (session ins slots).2.countP (Ev.isCloseAt k) =
          (if phase s ≤ 1 ∧ phase s' = 2 then 1 else 0) := by
  intro ins
  induction ins with
  | nil =>
    intro slots k s hk
    refine ⟨s, hk, Nat.le_refl _, ?_, ?_⟩ <;>
      rw [show (session [] slots).2 = [] from rfl, List.countP_nil]
    · omega
    · split
      · rename_i hc
        omega
      · rfl
  | cons prios rest ih =>
    intro slots k s hk
    simp only [session, List.countP_append]
    obtain ⟨m, hm, hmp⟩ := mergeSlots_phase slots prios k s hk
    obtain ⟨r, hr, hrmono, hrO, hrC⟩ :=
      roundLoop_phase_counts (passMeasure (mergeSlots slots prios).1)
        (mergeSlots slots prios).1 (mergeSlots slots prios).2 k m hm
    obtain ⟨s', hs', hsmono, hsO, hsC⟩ := ih _ k r hr
    have h2s := phase_le_two s
    have h2r := phase_le_two r
    have h2s' := phase_le_two s'
    rw [hmp] at hrmono hrO hrC
    refine ⟨s', hs', le_trans hrmono hsmono, ?_, ?_⟩
    · split_ifs at hrO hsO ⊢ <;> omega
    · split_ifs at hrC hsC ⊢ <;> omega

theorem phase_eq_two_iff (s : Slot) : phase s = 2 ↔ s.done = true := by
  unfold phase
  cases hd : s.done
  · simp only [Bool.false_eq_true, if_false]
    constructor
    · intro h
      split at h <;> omega
    · intro h
      cases h
  · simp

theorem phase_le_one_iff (s : Slot) : phase s ≤ 1 ↔ s.done = false := by
  unfold phase
  cases hd : s.done
  · simp only [Bool.false_eq_true, if_false, iff_true]
    split <;> omega
  · simp

theorem phase_eq_zero_iff (s : Slot) :
    phase s = 0 ↔ s.done = false ∧ s.file = none := by
  unfold phase
  cases hd : s.done
  · simp only [Bool.false_eq_true, if_false, true_and]
    cases hf : s.file <;> simp
  · simp

theorem serveSlot_lazy_open (i : Nat) (s : Slot) :
    (serveSlot i s).2.1.countP (Ev.isOpenAt i) =
      (if s.prio ≠ 0 ∧ s.done = false ∧ s.file = none then 1 else 0) := by
  rw [serveSlot_open_count]
  refine if_congr ?_ rfl rfl
  constructor
  · rintro ⟨h0, hge⟩
    obtain ⟨hdf, hfn⟩ := (phase_eq_zero_iff s).mp h0
    refine ⟨?_, hdf, hfn⟩
    intro hp0
    rw [serveSlot_skip i s (Or.inl hp0)] at hge
    dsimp only at hge
    omega
  · rintro ⟨h1, h2, h3⟩
    refine ⟨(phase_eq_zero_iff s).mpr ⟨h2, h3⟩, ?_⟩
    have hs : ¬(s.prio = 0 ∨ s.done = true) := by
      push_neg
      exact ⟨h1, by simp [h2]⟩
    rw [serveSlot_eq i s hs]
    dsimp only
    split <;> simp [phase, h2]

theorem serveSlot_close_at_done (i : Nat) (s : Slot) :
    (serveSlot i s).2.1.countP (Ev.isCloseAt i) =
      (if (serveSlot i s).1.done = true ∧ s.done = false then 1 else 0) := by
  rw [serveSlot_close_count]
  refine if_congr ?_ rfl rfl
  rw [phase_le_one_iff, phase_eq_two_iff]
  exact and_comm

theorem initSlots_length (sizes : List Nat) :
    (initSlots sizes).length = sizes.length := by
  simp [initSlots]

theorem initSlots_getElem? (sizes : List Nat) (k : Nat) :
    (initSlots sizes)[k]? =
      (sizes[k]?).map (fun sz => (⟨0, sz, false, none⟩ : Slot)) := by
  simp [initSlots]

/-- C6: per catalog index over a whole connection, done slots hold no open
resource; the resource is opened at most once and lazily — an open event
happens in a visit exactly when the index has nonzero priority, is not
done, and holds no resource yet; the resource is released exactly once,
exactly at the visit where the slot transitions to done — over the whole
session the number of release events equals 1 precisely for the indices
that end done; and once done an index is never serviced or reopened again,
its slot keeping `done` and its (absent) resource forever. -/
theorem session_resource_spec (sizes : List Nat) (incoming : List (List Nat)) :
    (∀ s ∈ (session incoming (initSlots sizes)).1, s.done = true →
       s.file = none) ∧
    (∀ k, (session incoming (initSlots sizes)).2.countP (Ev.isOpenAt k) ≤ 1) ∧
    (∀ k s', (session incoming (initSlots sizes)).1[k]? = some s' →
       (session incoming (initSlots sizes)).2.countP (Ev.isCloseAt k) =
         (if s'.done = true then 1 else 0)) ∧
    (∀ i s, (serveSlot i s).2.1.countP (Ev.isOpenAt i) =
       (if s.prio ≠ 0 ∧ s.done = false ∧ s.file = none then 1 else 0)) ∧
    (∀ i s, (serveSlot i s).2.1.countP (Ev.isCloseAt i) =
       (if (serveSlot i s).1.done = true ∧ s.done = false then 1 else 0)) ∧
    (∀ (ins : List (List Nat)) (slots : List Slot) (k : Nat) (s : Slot),
       slots[k]? = some s → s.done = true →
       (session ins slots).2.countP (fun e => e.idx == k) = 0 ∧
       ∃ s', (session ins slots).1[k]? = some s' ∧ s'.done = true ∧
         s'.file = s.file) := by
  refine ⟨?_, ?_, ?_, serveSlot_lazy_open, serveSlot_close_at_done,
    fun ins slots k s hk hd => session_done_stable ins slots k s hk hd⟩
  · refine session_inv incoming (initSlots sizes) ?_
    intro s hs hd
    obtain ⟨sz, -, rfl⟩ := List.mem_map.mp hs
    cases hd
  · intro k
    by_cases hk : k < sizes.length
    · have hinit : (initSlots sizes)[k]? = some ⟨0, sizes[k], false, none⟩ := by
        rw [initSlots_getElem?, List.getElem?_eq_getElem hk, Option.map_some']
      obtain ⟨s', -, -, hO, -⟩ :=
        session_phase_counts incoming (initSlots sizes) k _ hinit
      have hph0 : phase (⟨0, sizes[k], false, none⟩ : Slot) = 0 := by
        simp [phase]
      rw [hph0] at hO
      split_ifs at hO <;> omega
    · have hzero : (session incoming (initSlots sizes)).2.countP
          (Ev.isOpenAt k) = 0 := by
        rw [List.countP_eq_zero]
        intro e he hpe
        have hidx := isOpenAt_idx k e hpe
        have := session_idx_range incoming (initSlots sizes) e he
        rw [initSlots_length] at this
        omega
      omega
  · intro k s' hs'
    have hklen : k < (session incoming (initSlots sizes)).1.length :=
      (List.getElem?_eq_some_iff.mp hs').1
    rw [session_length, initSlots_length] at hklen
    have hinit : (initSlots sizes)[k]? = some ⟨0, sizes[k], false, none⟩ := by
      rw [initSlots_getElem?, List.getElem?_eq_getElem hklen, Option.map_some']
    obtain ⟨s'', hs'', -, -, hC⟩ :=
      session_phase_counts incoming (initSlots sizes) k _ hinit
    rw [hs'] at hs''
    obtain rfl : s'' = s' := by
      exact (Option.some.injEq _ _ ▸ hs'').symm
    have hph0 : phase (⟨0, sizes[k], false, none⟩ : Slot) = 0 := by
      simp [phase]
    rw [hph0] at hC
    rw [hC]
    refine if_congr ?_ rfl rfl
    rw [phase_eq_two_iff]
    constructor
    · rintro ⟨-, h⟩
      exact h
    · intro h
      exact ⟨by omega, h⟩

/-- Witness for C6: a one-file catalog (size 0) with a single round
activating it. -/
theorem session_resource_spec_witness :
    (session [[1]] (initSlots [0])).1[0]? = some ⟨1, 0, true, none⟩ ∧
    (session [[1]] (initSlots [0])).2.countP (Ev.isOpenAt 0) ≤ 1 ∧
    (session [[1]] (initSlots [0])).2.countP (Ev.isCloseAt 0) = 1 := by
  have h := session_resource_spec [0] [[1]]
  have hget : (session [[1]] (initSlots [0])).1[0]? =
      some ⟨1, 0, true, none⟩ := by decide
  refine ⟨hget, h.2.1 0, ?_⟩
  have hc := h.2.2.1 0 ⟨1, 0, true, none⟩ hget
  simpa using hc

end Socket
